import Mathlib

/-!
Verification of the `CityGrid` coverage planner (`src/main.py`).

The embedding mirrors the Python source:
* the numpy array `self.grid` is a function `Nat → Nat → Int` over
  row/column indices, with the same cell encoding as the source
  (`-1` obstruction, `0` free, `1` covered);
* `self.towers` is a list of the raw (possibly negative) integer
  coordinates passed to `place_tower`;
* `self.budget` is an `Int` (a Python int);
* `self.tower_types` is the catalog, kept as a list in dict insertion
  order; the source's fixed catalog is `defaultTowerTypes` below.

Python floating-point division in the greedy value `coverage / cost` is
modelled by exact rational division.  For the source's fixed catalog all
values are integer multiples of `1/60` bounded by `49/15`, where IEEE
double division is exact enough that `>` on the doubles agrees with `>`
on the rationals, so the selection is unchanged.

Exceptions (`IndexError` from a numpy index, the `ValueError` raised by
`place_tower`, `KeyError` from a missing dict key) are modelled with
`Except`.
-/

/-- One entry of the `tower_types` dict: the key and its
`range`/`cost` attributes. -/
structure TowerType where
  name : String
  rng : Int
  cost : Int
deriving DecidableEq, Repr

/-- The exceptions the modelled code can raise. -/
inductive PyErr where
  /-- numpy `IndexError`: index outside `[-size, size)`. -/
  | indexError
  /-- The `ValueError("Cannot place tower on obstructed block.")`
  raised by `place_tower`. -/
  | invalidPlacement
  /-- `KeyError` from `graph[current]` in `breadth_first`. -/
  | keyError
deriving DecidableEq, Repr

/-- The state of a `CityGrid` object (`__init__` fields).  Obstruction
placement is randomized externally, so the grid contents are arbitrary
here; the source initializes `towers = []` and the fixed catalog
`defaultTowerTypes`. -/
structure CityGrid where
  n : Nat
  m : Nat
  grid : Nat → Nat → Int
  towers : List (Int × Int)
  budget : Int
  tower_types : List TowerType

/-- The catalog hard-coded in `__init__`, in dict insertion order. -/
def defaultTowerTypes : List TowerType :=
  [⟨"small", 1, 15⟩, ⟨"medium", 2, 30⟩, ⟨"large", 3, 60⟩]

/-- numpy index resolution for one axis: indices in `[0, size)` are
used as is, indices in `[-size, 0)` wrap around, anything else raises
`IndexError`. -/
def resolveIdx (size : Nat) (i : Int) : Option Nat :=
  if 0 ≤ i ∧ i < (size : Int) then some i.toNat
  else if -(size : Int) ≤ i ∧ i < 0 then some (i + size).toNat
  else none

/-- Membership of the cell `p` in the clamped coverage window of a
tower at `(x, y)` with range `r`: the source computes
`range(max(0, x - r), min(n, x + r + 1))` (and the same for `y`), both
in `place_tower` and in `calculate_coverage`. -/
def inWindow (g : CityGrid) (x y r : Int) (p : Nat × Nat) : Prop :=
  max 0 (x - r) ≤ (p.1 : Int) ∧ (p.1 : Int) < min (g.n : Int) (x + r + 1) ∧
  max 0 (y - r) ≤ (p.2 : Int) ∧ (p.2 : Int) < min (g.m : Int) (y + r + 1)

instance (g : CityGrid) (x y r : Int) (p : Nat × Nat) :
    Decidable (inWindow g x y r p) := by
  unfold inWindow; infer_instance

/-- The grid after the marking loop of `place_tower`: every
non-obstructed cell of the clamped window becomes `1`, everything else
is unchanged. -/
def markWindow (g : CityGrid) (x y r : Int) : Nat → Nat → Int :=
  fun i j =>
    if inWindow g x y r (i, j) ∧ g.grid i j ≠ -1 then 1 else g.grid i j

/-- `CityGrid.place_tower`.  The obstruction test `self.grid[x, y] == -1`
resolves the indices first (numpy semantics), then the window is marked
using the raw `x`, `y` and the pair `(x, y)` is appended to `towers`. -/
def place_tower (g : CityGrid) (x y r : Int) : Except PyErr CityGrid :=
  match resolveIdx g.n x, resolveIdx g.m y with
  | some xi, some yj =>
    if g.grid xi yj = -1 then .error .invalidPlacement
    else .ok { g with grid := markWindow g x y r,
                      towers := g.towers ++ [(x, y)] }
  | _, _ => .error .indexError

/-- `CityGrid.calculate_coverage`: the members of `uncovered_blocks`
inside the clamped window. -/
def calculate_coverage (g : CityGrid) (x y r : Int)
    (uncovered_blocks : Finset (Nat × Nat)) : Finset (Nat × Nat) :=
  uncovered_blocks.filter (fun p => inWindow g x y r p)

/-- The initial `uncovered_blocks` set of `place_towers`: all cells
with value `0`. -/
def uncovered_init (g : CityGrid) : Finset (Nat × Nat) :=
  (Finset.range g.n ×ˢ Finset.range g.m).filter (fun p => g.grid p.1 p.2 = 0)

/-- The cells in the scan order of `place_towers`: row-major. -/
def cellsRowMajor (g : CityGrid) : List (Nat × Nat) :=
  (List.range g.n).flatMap (fun i => (List.range g.m).map (fun j => (i, j)))

/-- The (cell, tower type) pairs examined by one iteration of the
selection scan in `place_towers`, in evaluation order: tower types in
catalog order (skipping the unaffordable ones), and for each type the
free cells row-major.  A scanned pair carries the full `TowerType`
record: the source stores the dict key and re-reads
`self.tower_types[tower_type]`, which returns the same attributes. -/
def scanPairs (g : CityGrid) : List (Nat × Nat × TowerType) :=
  g.tower_types.flatMap (fun t =>
    if g.budget < t.cost then []
    else (cellsRowMajor g).filterMap (fun p =>
      if g.grid p.1 p.2 = 0 then some (p.1, p.2, t) else none))

/-- The greedy signal `value = coverage / cost` of a scanned pair
(exact rational in place of Python float, see the header comment;
`Rat.divInt` is the exact quotient of the two integers). -/
def candValue (g : CityGrid) (u : Finset (Nat × Nat))
    (c : Nat × Nat × TowerType) : ℚ :=
  Rat.divInt ((calculate_coverage g c.1 c.2.1 c.2.2.rng u).card : Int) c.2.2.cost

/-- One comparison step of the scan: replace the best candidate when
`value > best_value`. -/
def selStep (g : CityGrid) (u : Finset (Nat × Nat))
    (acc : ℚ × Option (Nat × Nat × TowerType)) (c : Nat × Nat × TowerType) :
    ℚ × Option (Nat × Nat × TowerType) :=
  if acc.1 < candValue g u c then (candValue g u c, some c) else acc

/-- The selection scan of one `place_towers` iteration, starting from
`best_value = 0`, `best_choice = None`. -/
def selectBest (g : CityGrid) (u : Finset (Nat × Nat)) :
    ℚ × Option (Nat × Nat × TowerType) :=
  (scanPairs g).foldl (selStep g u) (0, none)

/-- Committing the pair picked by the scan, as in the loop body of
`place_towers`: call `place_tower`, subtract the cost, and remove the
coverage (computed against the pre-commit uncovered set; the source
calls `calculate_coverage` after `place_tower`, but it reads only
`n`, `m` and the uncovered set, which the call does not change).
The source's exception from `place_tower` cannot occur here because the
scan only yields free, in-bounds cells (theorem
`optimizer_avoids_invalid_placement`); this unreachable branch leaves
the state unchanged. -/
def commitChoice (g : CityGrid) (u : Finset (Nat × Nat))
    (c : Nat × Nat × TowerType) : CityGrid × Finset (Nat × Nat) :=
  match place_tower g c.1 c.2.1 c.2.2.rng with
  | .ok g1 =>
    ({ g1 with budget := g1.budget - c.2.2.cost },
     u \ calculate_coverage g c.1 c.2.1 c.2.2.rng u)
  | .error _ => (g, u)

/-- The `while uncovered_blocks and self.budget > 0` loop of
`place_towers`.  `fuel` is a structural-recursion bound; every
committed choice has positive value, hence nonempty coverage, so the
uncovered set shrinks strictly and `u.card + 1` fuel always suffices
(theorem `place_towers_loop_fuel_stable`).  Besides the final state the
loop returns the list of committed `(x, y, towerType)` choices, the
commit trace (the coordinates are exactly the ones appended to
`towers` by `place_tower`). -/
def place_towers_loop (fuel : Nat) (g : CityGrid) (u : Finset (Nat × Nat)) :
    CityGrid × List (Nat × Nat × TowerType) :=
  match fuel with
  | 0 => (g, [])
  | fuel + 1 =>
    if u.Nonempty ∧ 0 < g.budget then
      match (selectBest g u).2 with
      | none => (g, [])
      | some c =>
        let s := commitChoice g u c
        let rest := place_towers_loop fuel s.1 s.2
        (rest.1, c :: rest.2)
    else (g, [])

/-- `CityGrid.place_towers`. -/
def place_towers (g : CityGrid) : CityGrid × List (Nat × Nat × TowerType) :=
  place_towers_loop ((uncovered_init g).card + 1) g (uncovered_init g)

/-- Total cost of a commit trace. -/
def costSum (tr : List (Nat × Nat × TowerType)) : Int :=
  (tr.map (fun c => c.2.2.cost)).sum

-- quick sanity examples (concrete evaluation of the embedding)
example :
    place_tower ⟨1, 1, fun _ _ => 0, [], 0, []⟩ 1 0 0 = .error .indexError := by
  rfl
example :
    place_tower ⟨1, 1, fun _ _ => -1, [], 0, []⟩ 0 0 0 =
      .error .invalidPlacement := by
  rfl
example :
    (calculate_coverage ⟨1, 3, fun _ _ => 0, [], 0, []⟩ 0 1 1
      (uncovered_init ⟨1, 3, fun _ _ => 0, [], 0, []⟩)).card = 3 := by
  decide
example :
    (selectBest ⟨1, 3, fun _ _ => 0, [], 45, defaultTowerTypes⟩
      (uncovered_init ⟨1, 3, fun _ _ => 0, [], 45, defaultTowerTypes⟩)).2 =
      some (0, 1, ⟨"small", 1, 15⟩) := by
  decide
example :
    (place_towers ⟨1, 5, fun _ _ => 0, [], 30, [⟨"small", 1, 15⟩]⟩).2 =
      [(0, 1, ⟨"small", 1, 15⟩), (0, 3, ⟨"small", 1, 15⟩)] := by
  decide
example :
    (place_towers ⟨1, 5, fun _ _ => 0, [], 30, [⟨"small", 1, 15⟩]⟩).1.towers =
      [(0, 1), (0, 3)] ∧
    (place_towers ⟨1, 5, fun _ _ => 0, [], 30, [⟨"small", 1, 15⟩]⟩).1.budget = 0 := by
  decide

/-! ## PathFinder: `find_shortest_path`, `is_within_range`, `breadth_first` -/

/-- A tower position as stored in `self.towers`. -/
abbrev Tower := Int × Int

/-- `CityGrid.is_within_range`: Chebyshev distance at most `r` in both
coordinates. -/
def is_within_range (t1 t2 : Tower) (r : Int) : Prop :=
  |t1.1 - t2.1| ≤ r ∧ |t1.2 - t2.2| ≤ r

instance (t1 t2 : Tower) (r : Int) : Decidable (is_within_range t1 t2 r) := by
  unfold is_within_range; infer_instance

/-- The `(tower1, tower2)` pairs enumerated by the graph-building loop
of `find_shortest_path`, in order: `tower1 = towers[i]`,
`tower2 in towers[i+1:]`. -/
def indexPairs : List Tower → List (Tower × Tower)
  | [] => []
  | a :: rest => rest.map (fun b => (a, b)) ++ indexPairs rest

/-- `graph[a].append(b)`: append `b` to the adjacency list of key `a`
(no change when the key is absent; the source never appends to an
absent key since every enumerated tower is a dict key). -/
def addEdge (gr : Tower → Option (List Tower)) (a b : Tower) :
    Tower → Option (List Tower) :=
  fun t => if t = a then (gr a).map (fun l => l ++ [b]) else gr t

/-- Process one enumerated pair of the graph-building loop: when the
two towers are within range, append each to the other's adjacency
list. -/
def addPairEdges (r : Int) (gr : Tower → Option (List Tower))
    (p : Tower × Tower) : Tower → Option (List Tower) :=
  if is_within_range p.1 p.2 r then addEdge (addEdge gr p.1 p.2) p.2 p.1
  else gr

/-- The adjacency dict built by `find_shortest_path`: every tower is a
key with an initially empty list, and each in-range pair appends both
directions, in enumeration order. -/
def buildGraph (towers : List Tower) (r : Int) : Tower → Option (List Tower) :=
  (indexPairs towers).foldl (addPairEdges r)
    (fun t => if t ∈ towers then some [] else none)

/-- The `while queue:` loop of `breadth_first`.  The queue holds
`(node, path)` pairs; popping compares against `end` first, then looks
the node up in the dict (`KeyError` when absent, possible only for
`start`), then appends the unvisited neighbors, updating `visited` as
it goes.  `fuel` is a structural-recursion bound; every iteration pops
one entry and each enqueue marks a fresh tower visited, so
`towers.length + 1` fuel always suffices (theorem
`bfs_loop_fuel_stable`); on exhausted fuel the result is `.ok none`,
identical to the exhausted-queue answer. -/
def bfs_loop (graph : Tower → Option (List Tower)) (endT : Tower) :
    Nat → List (Tower × List Tower) → Finset Tower →
    Except PyErr (Option (List Tower))
  | _, [], _ => .ok none
  | 0, _ :: _, _ => .ok none
  | fuel + 1, (current, path) :: rest, visited =>
    if current = endT then .ok (some path)
    else
      match graph current with
      | none => .error .keyError
      | some nbrs =>
        let s := nbrs.foldl
          (fun (acc : List (Tower × List Tower) × Finset Tower) nb =>
            if nb ∈ acc.2 then acc
            else (acc.1 ++ [(nb, path ++ [nb])], insert nb acc.2))
          (rest, visited)
        bfs_loop graph endT fuel s.1 s.2

/-- `CityGrid.breadth_first` with an explicit fuel bound. -/
def breadth_first (graph : Tower → Option (List Tower))
    (start endT : Tower) (fuel : Nat) : Except PyErr (Option (List Tower)) :=
  bfs_loop graph endT fuel [(start, [start])] ∅

/-- `CityGrid.find_shortest_path`: build the adjacency graph over the
committed towers and run breadth-first search. -/
def find_shortest_path (g : CityGrid) (start endT : Tower) (r : Int) :
    Except PyErr (Option (List Tower)) :=
  breadth_first (buildGraph g.towers r) start endT (g.towers.length + 1)

/-- The grid of the spec's fixed BFS example: placements `(0,0)`,
`(1,1)`, `(5,5)`. -/
def bfsExampleGrid : CityGrid :=
  ⟨6, 6, fun _ _ => 0, [(0, 0), (1, 1), (5, 5)], 0, defaultTowerTypes⟩

example :
    find_shortest_path bfsExampleGrid (0, 0) (5, 5) 2 = .ok none := by rfl
example :
    find_shortest_path bfsExampleGrid (0, 0) (1, 1) 2 =
      .ok (some [(0, 0), (1, 1)]) := by rfl
example :
    find_shortest_path bfsExampleGrid (2, 2) (0, 0) 2 = .error .keyError := by
  rfl
example :
    find_shortest_path bfsExampleGrid (2, 2) (2, 2) 2 =
      .ok (some [(2, 2)]) := by rfl

/-! ## Basic lemmas about the grid operations -/

theorem resolveIdx_coe {size : Nat} {i : Nat} (h : i < size) :
    resolveIdx size (i : Int) = some i := by
  simp [resolveIdx, h]

theorem place_tower_ok_of_free {g : CityGrid} {x y : Nat} (r : Int)
    (hx : x < g.n) (hy : y < g.m) (hfree : g.grid x y ≠ -1) :
    place_tower g x y r =
      .ok { g with grid := markWindow g x y r,
                   towers := g.towers ++ [((x : Int), (y : Int))] } := by
  simp [place_tower, resolveIdx_coe hx, resolveIdx_coe hy, hfree]

theorem mem_cellsRowMajor {g : CityGrid} {p : Nat × Nat} :
    p ∈ cellsRowMajor g ↔ p.1 < g.n ∧ p.2 < g.m := by
  obtain ⟨i, j⟩ := p
  simp [cellsRowMajor]

theorem mem_scanPairs {g : CityGrid} {c : Nat × Nat × TowerType} :
    c ∈ scanPairs g ↔
      c.2.2 ∈ g.tower_types ∧ c.2.2.cost ≤ g.budget ∧
      c.1 < g.n ∧ c.2.1 < g.m ∧ g.grid c.1 c.2.1 = 0 := by
  obtain ⟨x, y, t⟩ := c
  constructor
  · intro h
    simp only [scanPairs, List.mem_flatMap] at h
    obtain ⟨t', ht', hmem⟩ := h
    by_cases hb : g.budget < t'.cost
    · simp [hb] at hmem
    · simp only [hb, if_false, List.mem_filterMap] at hmem
      obtain ⟨p, hp, heq⟩ := hmem
      by_cases hfree : g.grid p.1 p.2 = 0
      · simp only [hfree, if_true, Option.some.injEq, Prod.mk.injEq] at heq
        obtain ⟨h1, h2, h3⟩ := heq
        subst h1; subst h2; subst h3
        exact ⟨ht', le_of_not_lt hb, (mem_cellsRowMajor.mp hp).1,
               (mem_cellsRowMajor.mp hp).2, hfree⟩
      · simp [hfree] at heq
  · rintro ⟨ht, hb, hx, hy, hfree⟩
    simp only [scanPairs, List.mem_flatMap]
    refine ⟨t, ht, ?_⟩
    rw [if_neg (not_lt.mpr hb)]
    simp only [List.mem_filterMap]
    exact ⟨(x, y), mem_cellsRowMajor.mpr ⟨hx, hy⟩, by simp [hfree]⟩

theorem mem_calculate_coverage {g : CityGrid} {x y r : Int}
    {u : Finset (Nat × Nat)} {p : Nat × Nat} :
    p ∈ calculate_coverage g x y r u ↔ p ∈ u ∧ inWindow g x y r p := by
  simp [calculate_coverage]

theorem calculate_coverage_subset (g : CityGrid) (x y r : Int)
    (u : Finset (Nat × Nat)) : calculate_coverage g x y r u ⊆ u :=
  Finset.filter_subset _ _

theorem mem_uncovered_init {g : CityGrid} {p : Nat × Nat} :
    p ∈ uncovered_init g ↔ p.1 < g.n ∧ p.2 < g.m ∧ g.grid p.1 p.2 = 0 := by
  obtain ⟨i, j⟩ := p
  simp [uncovered_init, and_assoc]

/-! ## The selection scan: specification of `selectBest` -/

theorem foldl_selStep_spec (g : CityGrid) (u : Finset (Nat × Nat)) :
    ∀ (l : List (Nat × Nat × TowerType)) (v0 : ℚ)
      (o0 : Option (Nat × Nat × TowerType)),
      (l.foldl (selStep g u) (v0, o0) = (v0, o0) ∧
        ∀ c ∈ l, candValue g u c ≤ v0) ∨
      (∃ l1 c l2, l = l1 ++ c :: l2 ∧
        l.foldl (selStep g u) (v0, o0) = (candValue g u c, some c) ∧
        v0 < candValue g u c ∧
        (∀ c' ∈ l1, candValue g u c' < candValue g u c) ∧
        (∀ c' ∈ l2, candValue g u c' ≤ candValue g u c)) := by
  intro l
  induction l with
  | nil => intro v0 o0; exact Or.inl ⟨rfl, by simp⟩
  | cons a l ih =>
    intro v0 o0
    by_cases hlt : v0 < candValue g u a
    · have hstep : selStep g u (v0, o0) a = (candValue g u a, some a) := by
        simp [selStep, hlt]
      rcases ih (candValue g u a) (some a) with ⟨heq, hall⟩ | ⟨l1, c, l2, hsplit, heq, hv, h1, h2⟩
      · refine Or.inr ⟨[], a, l, by simp, ?_, hlt, by simp, hall⟩
        simpa [hstep] using heq
      · refine Or.inr ⟨a :: l1, c, l2, by simp [hsplit], ?_, lt_trans hlt hv, ?_, h2⟩
        · simpa [hstep] using heq
        · intro c' hc'
          rcases List.mem_cons.mp hc' with h | h
          · exact h ▸ hv
          · exact h1 c' h
    · have hstep : selStep g u (v0, o0) a = (v0, o0) := by
        simp [selStep, hlt]
      rcases ih v0 o0 with ⟨heq, hall⟩ | ⟨l1, c, l2, hsplit, heq, hv, h1, h2⟩
      · refine Or.inl ⟨?_, ?_⟩
        · simpa [hstep] using heq
        · intro c' hc'
          rcases List.mem_cons.mp hc' with h | h
          · exact h ▸ le_of_not_lt hlt
          · exact hall c' h
      · refine Or.inr ⟨a :: l1, c, l2, by simp [hsplit], ?_, hv, ?_, h2⟩
        · simpa [hstep] using heq
        · intro c' hc'
          rcases List.mem_cons.mp hc' with h | h
          · exact h ▸ lt_of_le_of_lt (le_of_not_lt hlt) hv
          · exact h1 c' h

theorem selectBest_none (g : CityGrid) (u : Finset (Nat × Nat))
    (h : (selectBest g u).2 = none) :
    ∀ c ∈ scanPairs g, candValue g u c ≤ 0 := by
  rcases foldl_selStep_spec g u (scanPairs g) 0 none with ⟨_, hall⟩ | ⟨l1, c, l2, _, heq, _, _, _⟩
  · exact hall
  · rw [selectBest, heq] at h; simp at h

theorem selectBest_some (g : CityGrid) (u : Finset (Nat × Nat))
    (c : Nat × Nat × TowerType) (h : (selectBest g u).2 = some c) :
    ∃ l1 l2, scanPairs g = l1 ++ c :: l2 ∧
      0 < candValue g u c ∧
      (∀ c' ∈ l1, candValue g u c' < candValue g u c) ∧
      (∀ c' ∈ l2, candValue g u c' ≤ candValue g u c) := by
  rcases foldl_selStep_spec g u (scanPairs g) 0 none with ⟨heq, _⟩ | ⟨l1, c', l2, hsplit, heq, hv, h1, h2⟩
  · rw [selectBest, heq] at h; simp at h
  · rw [selectBest, heq] at h
    simp only [Option.some.injEq] at h
    subst h
    exact ⟨l1, l2, hsplit, hv, h1, h2⟩

theorem selectBest_mem (g : CityGrid) (u : Finset (Nat × Nat))
    (c : Nat × Nat × TowerType) (h : (selectBest g u).2 = some c) :
    c ∈ scanPairs g := by
  obtain ⟨l1, l2, hsplit, _⟩ := selectBest_some g u c h
  rw [hsplit]; simp

theorem selectBest_max (g : CityGrid) (u : Finset (Nat × Nat))
    (c : Nat × Nat × TowerType) (h : (selectBest g u).2 = some c) :
    ∀ c' ∈ scanPairs g, candValue g u c' ≤ candValue g u c := by
  obtain ⟨l1, l2, hsplit, _, h1, h2⟩ := selectBest_some g u c h
  intro c' hc'
  rw [hsplit] at hc'
  rcases List.mem_append.mp hc' with hmem | hmem
  · exact le_of_lt (h1 c' hmem)
  · rcases List.mem_cons.mp hmem with hceq | hmem
    · exact le_of_eq (by rw [hceq])
    · exact h2 c' hmem

theorem selectBest_cov_nonempty (g : CityGrid) (u : Finset (Nat × Nat))
    (c : Nat × Nat × TowerType) (h : (selectBest g u).2 = some c) :
    (calculate_coverage g c.1 c.2.1 c.2.2.rng u).Nonempty := by
  obtain ⟨_, _, _, hpos, _⟩ := selectBest_some g u c h
  rw [Finset.nonempty_iff_ne_empty]
  intro hempty
  rw [candValue, hempty] at hpos
  simp at hpos

theorem selectBest_rng_nonneg (g : CityGrid) (u : Finset (Nat × Nat))
    (c : Nat × Nat × TowerType) (h : (selectBest g u).2 = some c) :
    0 ≤ c.2.2.rng := by
  obtain ⟨p, hp⟩ := selectBest_cov_nonempty g u c h
  obtain ⟨-, hw⟩ := mem_calculate_coverage.mp hp
  obtain ⟨h1, h2, -, -⟩ := hw
  have := le_trans (le_max_right 0 ((c.1 : Int) - c.2.2.rng)) h1
  have := lt_of_lt_of_le h2 (min_le_right _ _)
  omega

/-! ## The optimizer loop: commit characterization and invariants -/

theorem commitChoice_selected (g : CityGrid) (u : Finset (Nat × Nat))
    (c : Nat × Nat × TowerType) (h : (selectBest g u).2 = some c) :
    commitChoice g u c =
      ({ n := g.n, m := g.m, grid := markWindow g c.1 c.2.1 c.2.2.rng,
         towers := g.towers ++ [((c.1 : Int), (c.2.1 : Int))],
         budget := g.budget - c.2.2.cost, tower_types := g.tower_types },
       u \ calculate_coverage g c.1 c.2.1 c.2.2.rng u) := by
  obtain ⟨-, -, hx, hy, hfree⟩ := mem_scanPairs.mp (selectBest_mem g u c h)
  have hne : g.grid c.1 c.2.1 ≠ -1 := by rw [hfree]; decide
  rw [commitChoice, place_tower_ok_of_free c.2.2.rng hx hy hne]

theorem selected_inWindow_self (g : CityGrid) (u : Finset (Nat × Nat))
    (c : Nat × Nat × TowerType) (h : (selectBest g u).2 = some c) :
    inWindow g c.1 c.2.1 c.2.2.rng (c.1, c.2.1) := by
  obtain ⟨-, -, hx, hy, -⟩ := mem_scanPairs.mp (selectBest_mem g u c h)
  have hr := selectBest_rng_nonneg g u c h
  refine ⟨?_, ?_, ?_, ?_⟩ <;> simp <;> omega

theorem markWindow_eq_zero_iff (g : CityGrid) (x y r : Int) (i j : Nat) :
    markWindow g x y r i j = 0 ↔
      g.grid i j = 0 ∧ ¬ inWindow g x y r (i, j) := by
  rw [markWindow]
  by_cases hw : inWindow g x y r (i, j) ∧ g.grid i j ≠ -1
  · rw [if_pos hw]
    constructor
    · intro h; exact absurd h (by decide)
    · rintro ⟨-, hnw⟩; exact absurd hw.1 hnw
  · rw [if_neg hw]
    constructor
    · intro h0
      refine ⟨h0, fun hin => hw ⟨hin, by rw [h0]; decide⟩⟩
    · exact fun h => h.1

theorem markWindow_ne_zero (g : CityGrid) (x y r : Int) (i j : Nat)
    (h : g.grid i j ≠ 0) : markWindow g x y r i j ≠ 0 := by
  intro h0
  exact h ((markWindow_eq_zero_iff g x y r i j).mp h0).1

theorem commit_uncovered_eq (g : CityGrid) (u : Finset (Nat × Nat))
    (c : Nat × Nat × TowerType) (h : (selectBest g u).2 = some c)
    (hu : u = uncovered_init g) :
    (commitChoice g u c).2 = uncovered_init (commitChoice g u c).1 := by
  rw [commitChoice_selected g u c h]
  ext p
  obtain ⟨i, j⟩ := p
  simp only [Finset.mem_sdiff, mem_calculate_coverage, mem_uncovered_init,
    markWindow_eq_zero_iff, hu]
  constructor
  · rintro ⟨⟨hi, hj, h0⟩, hcov⟩
    refine ⟨hi, hj, h0, fun hin => hcov ⟨⟨hi, hj, h0⟩, hin⟩⟩
  · rintro ⟨hi, hj, h0, hnw⟩
    exact ⟨⟨hi, hj, h0⟩, fun hc => hnw hc.2⟩

theorem commit_card_lt (g : CityGrid) (u : Finset (Nat × Nat))
    (c : Nat × Nat × TowerType) (h : (selectBest g u).2 = some c) :
    (commitChoice g u c).2.card < u.card := by
  rw [commitChoice_selected g u c h]
  exact Finset.card_lt_card
    (Finset.sdiff_ssubset (calculate_coverage_subset g c.1 c.2.1 c.2.2.rng u)
      (selectBest_cov_nonempty g u c h))

theorem place_towers_loop_fuel_stable :
    ∀ (fuel : Nat) (g : CityGrid) (u : Finset (Nat × Nat)),
      u.card < fuel →
      place_towers_loop fuel g u = place_towers_loop (fuel + 1) g u := by
  intro fuel
  induction fuel with
  | zero => intro g u h; omega
  | succ fuel ih =>
    intro g u h
    rw [place_towers_loop, place_towers_loop]
    by_cases hguard : u.Nonempty ∧ 0 < g.budget
    · rw [if_pos hguard, if_pos hguard]
      match hsel : (selectBest g u).2 with
      | none => rfl
      | some c =>
        have hlt := commit_card_lt g u c hsel
        dsimp only
        rw [ih (commitChoice g u c).1 (commitChoice g u c).2 (by omega)]
    · rw [if_neg hguard, if_neg hguard]

theorem costSum_cons (c : Nat × Nat × TowerType)
    (tr : List (Nat × Nat × TowerType)) :
    costSum (c :: tr) = c.2.2.cost + costSum tr := by
  simp [costSum]

theorem place_towers_loop_dims :
    ∀ (fuel : Nat) (g : CityGrid) (u : Finset (Nat × Nat)),
      (place_towers_loop fuel g u).1.n = g.n ∧
      (place_towers_loop fuel g u).1.m = g.m ∧
      (place_towers_loop fuel g u).1.tower_types = g.tower_types := by
  intro fuel
  induction fuel with
  | zero => intro g u; exact ⟨rfl, rfl, rfl⟩
  | succ fuel ih =>
    intro g u
    rw [place_towers_loop]
    by_cases hguard : u.Nonempty ∧ 0 < g.budget
    · rw [if_pos hguard]
      match hsel : (selectBest g u).2 with
      | none => exact ⟨rfl, rfl, rfl⟩
      | some c =>
        dsimp only
        obtain ⟨hn, hm, ht⟩ := ih (commitChoice g u c).1 (commitChoice g u c).2
        have hcn : (commitChoice g u c).1.n = g.n := by
          rw [commitChoice_selected g u c hsel]
        have hcm : (commitChoice g u c).1.m = g.m := by
          rw [commitChoice_selected g u c hsel]
        have hct : (commitChoice g u c).1.tower_types = g.tower_types := by
          rw [commitChoice_selected g u c hsel]
        exact ⟨hn.trans hcn, hm.trans hcm, ht.trans hct⟩
    · rw [if_neg hguard]; exact ⟨rfl, rfl, rfl⟩

theorem place_towers_loop_budget :
    ∀ (fuel : Nat) (g : CityGrid) (u : Finset (Nat × Nat)),
      (place_towers_loop fuel g u).1.budget +
        costSum (place_towers_loop fuel g u).2 = g.budget := by
  intro fuel
  induction fuel with
  | zero => intro g u; simp [place_towers_loop, costSum]
  | succ fuel ih =>
    intro g u
    rw [place_towers_loop]
    by_cases hguard : u.Nonempty ∧ 0 < g.budget
    · rw [if_pos hguard]
      match hsel : (selectBest g u).2 with
      | none => simp [costSum]
      | some c =>
        dsimp only
        rw [costSum_cons]
        have hbud : (commitChoice g u c).1.budget = g.budget - c.2.2.cost := by
          rw [commitChoice_selected g u c hsel]
        have := ih (commitChoice g u c).1 (commitChoice g u c).2
        rw [hbud] at this
        omega
    · rw [if_neg hguard]; simp [costSum]

theorem place_towers_loop_budget_nonneg :
    ∀ (fuel : Nat) (g : CityGrid) (u : Finset (Nat × Nat)),
      0 ≤ g.budget → 0 ≤ (place_towers_loop fuel g u).1.budget := by
  intro fuel
  induction fuel with
  | zero => intro g u h; exact h
  | succ fuel ih =>
    intro g u h
    rw [place_towers_loop]
    by_cases hguard : u.Nonempty ∧ 0 < g.budget
    · rw [if_pos hguard]
      match hsel : (selectBest g u).2 with
      | none => exact h
      | some c =>
        dsimp only
        refine ih (commitChoice g u c).1 (commitChoice g u c).2 ?_
        have hcost := (mem_scanPairs.mp (selectBest_mem g u c hsel)).2.1
        rw [commitChoice_selected g u c hsel]
        dsimp only
        omega
    · rw [if_neg hguard]; exact h

theorem markWindow_preserve_one (g : CityGrid) (x y r : Int) (i j : Nat)
    (h : g.grid i j = 1) : markWindow g x y r i j = 1 := by
  rw [markWindow]
  by_cases hw : inWindow g x y r (i, j) ∧ g.grid i j ≠ -1
  · rw [if_pos hw]
  · rw [if_neg hw]; exact h

/-- The invariant of the committed-towers list maintained by the
optimizer loop: pairwise-distinct in-bounds coordinates, each sitting
on a cell currently marked `1`. -/
def TowersInv (g : CityGrid) : Prop :=
  g.towers.Nodup ∧
  ∀ q ∈ g.towers, ∃ i j : Nat,
    q = ((i : Int), (j : Int)) ∧ i < g.n ∧ j < g.m ∧ g.grid i j = 1

theorem commit_towersInv (g : CityGrid) (u : Finset (Nat × Nat))
    (c : Nat × Nat × TowerType) (hsel : (selectBest g u).2 = some c)
    (hinv : TowersInv g) : TowersInv (commitChoice g u c).1 := by
  obtain ⟨-, -, hx, hy, hfree⟩ := mem_scanPairs.mp (selectBest_mem g u c hsel)
  obtain ⟨hnodup, hmark⟩ := hinv
  have hnotmem : ((c.1 : Int), (c.2.1 : Int)) ∉ g.towers := by
    intro hmem
    obtain ⟨i, j, heq, -, -, hone⟩ := hmark _ hmem
    have hi : (i : Int) = (c.1 : Int) ∧ (j : Int) = (c.2.1 : Int) := by
      rw [Prod.mk.injEq] at heq
      exact ⟨heq.1.symm, heq.2.symm⟩
    have : i = c.1 ∧ j = c.2.1 := by omega
    rw [this.1, this.2] at hone
    rw [hfree] at hone
    exact absurd hone (by decide)
  rw [commitChoice_selected g u c hsel]
  constructor
  · simp only [List.nodup_append, List.nodup_cons, List.not_mem_nil,
      not_false_iff, List.nodup_nil, and_true, List.disjoint_singleton]
    exact ⟨hnodup, by simpa using hnotmem⟩
  · intro q hq
    rcases List.mem_append.mp hq with hold | hnew
    · obtain ⟨i, j, heq, hi, hj, hone⟩ := hmark q hold
      exact ⟨i, j, heq, hi, hj, markWindow_preserve_one g c.1 c.2.1 c.2.2.rng i j hone⟩
    · rcases List.mem_singleton.mp hnew with rfl
      refine ⟨c.1, c.2.1, rfl, hx, hy, ?_⟩
      show markWindow g c.1 c.2.1 c.2.2.rng c.1 c.2.1 = 1
      simp only [markWindow]
      rw [if_pos ⟨selected_inWindow_self g u c hsel, by rw [hfree]; decide⟩]

theorem place_towers_loop_towersInv :
    ∀ (fuel : Nat) (g : CityGrid) (u : Finset (Nat × Nat)),
      TowersInv g → TowersInv (place_towers_loop fuel g u).1 := by
  intro fuel
  induction fuel with
  | zero => intro g u h; exact h
  | succ fuel ih =>
    intro g u h
    rw [place_towers_loop]
    by_cases hguard : u.Nonempty ∧ 0 < g.budget
    · rw [if_pos hguard]
      match hsel : (selectBest g u).2 with
      | none => exact h
      | some c =>
        dsimp only
        exact ih (commitChoice g u c).1 (commitChoice g u c).2
          (commit_towersInv g u c hsel h)
    · rw [if_neg hguard]; exact h

theorem place_towers_loop_towers_eq :
    ∀ (fuel : Nat) (g : CityGrid) (u : Finset (Nat × Nat)),
      (place_towers_loop fuel g u).1.towers =
        g.towers ++ (place_towers_loop fuel g u).2.map
          (fun c => ((c.1 : Int), (c.2.1 : Int))) := by
  intro fuel
  induction fuel with
  | zero => intro g u; simp [place_towers_loop]
  | succ fuel ih =>
    intro g u
    rw [place_towers_loop]
    by_cases hguard : u.Nonempty ∧ 0 < g.budget
    · rw [if_pos hguard]
      match hsel : (selectBest g u).2 with
      | none => simp
      | some c =>
        dsimp only
        have htw : (commitChoice g u c).1.towers =
            g.towers ++ [((c.1 : Int), (c.2.1 : Int))] := by
          rw [commitChoice_selected g u c hsel]
        have := ih (commitChoice g u c).1 (commitChoice g u c).2
        rw [htw] at this
        simp only [List.map_cons, this, List.append_assoc, List.singleton_append]
    · rw [if_neg hguard]; simp

/-! ## The adjacency graph of `find_shortest_path` -/

/-- A directed edge of the built adjacency dict: `b` occurs in the
adjacency list of `a`. -/
def GEdge (graph : Tower → Option (List Tower)) (a b : Tower) : Prop :=
  ∃ l, graph a = some l ∧ b ∈ l

/-- The spec's adjacency relation: an undirected edge between two
distinct placements within Chebyshev distance `r`. -/
def Adj (towers : List Tower) (r : Int) (a b : Tower) : Prop :=
  a ∈ towers ∧ b ∈ towers ∧ a ≠ b ∧ is_within_range a b r

/-- `Reach towers r n a b`: a walk with exactly `n` edges of
`Adj towers r` from `a` to `b`. -/
inductive Reach (towers : List Tower) (r : Int) : Nat → Tower → Tower → Prop
  | refl (a : Tower) (h : a ∈ towers) : Reach towers r 0 a a
  | step {n : Nat} {a b c : Tower} : Reach towers r n a b →
      Adj towers r b c → Reach towers r (n + 1) a c

theorem is_within_range_symm {t1 t2 : Tower} {r : Int}
    (h : is_within_range t1 t2 r) : is_within_range t2 t1 r := by
  obtain ⟨h1, h2⟩ := h
  exact ⟨by rw [abs_sub_comm]; exact h1, by rw [abs_sub_comm]; exact h2⟩

theorem mem_indexPairs :
    ∀ (towers : List Tower) (p : Tower × Tower), p ∈ indexPairs towers →
      p.1 ∈ towers ∧ p.2 ∈ towers := by
  intro towers
  induction towers with
  | nil => intro p hp; simp [indexPairs] at hp
  | cons a rest ih =>
    intro p hp
    rw [indexPairs, List.mem_append] at hp
    rcases hp with hp | hp
    · obtain ⟨b, hb, rfl⟩ := List.mem_map.mp hp
      exact ⟨List.mem_cons_self a rest, List.mem_cons_of_mem a hb⟩
    · obtain ⟨h1, h2⟩ := ih p hp
      exact ⟨List.mem_cons_of_mem a h1, List.mem_cons_of_mem a h2⟩

theorem indexPairs_mem_map_of (x : Tower) (rest : List Tower) (b : Tower)
    (hb : b ∈ rest) : (x, b) ∈ indexPairs (x :: rest) := by
  rw [indexPairs, List.mem_append]
  exact Or.inl (List.mem_map.mpr ⟨b, hb, rfl⟩)

theorem indexPairs_mem_of (x : Tower) (rest : List Tower) (p : Tower × Tower)
    (hp : p ∈ indexPairs rest) : p ∈ indexPairs (x :: rest) := by
  rw [indexPairs, List.mem_append]
  exact Or.inr hp

theorem indexPairs_complete :
    ∀ (towers : List Tower) (a b : Tower), a ∈ towers → b ∈ towers → a ≠ b →
      (a, b) ∈ indexPairs towers ∨ (b, a) ∈ indexPairs towers := by
  intro towers
  induction towers with
  | nil => intro a b ha hb hne; simp at ha
  | cons x rest ih =>
    intro a b ha hb hne
    by_cases hax : a = x
    · have hbr : b ∈ rest := by
        rcases List.mem_cons.mp hb with h | h
        · exact absurd (h.trans hax.symm) (Ne.symm hne)
        · exact h
      refine Or.inl ?_
      rw [hax]
      exact indexPairs_mem_map_of x rest b hbr
    · by_cases hbx : b = x
      · have har : a ∈ rest := by
          rcases List.mem_cons.mp ha with h | h
          · exact absurd h hax
          · exact h
        refine Or.inr ?_
        rw [hbx]
        exact indexPairs_mem_map_of x rest a har
      · have har : a ∈ rest := by
          rcases List.mem_cons.mp ha with h | h
          · exact absurd h hax
          · exact h
        have hbr : b ∈ rest := by
          rcases List.mem_cons.mp hb with h | h
          · exact absurd h hbx
          · exact h
        rcases ih a b har hbr hne with h | h
        · exact Or.inl (indexPairs_mem_of x rest _ h)
        · exact Or.inr (indexPairs_mem_of x rest _ h)

theorem addEdge_none_iff (gr : Tower → Option (List Tower)) (a b t : Tower) :
    addEdge gr a b t = none ↔ gr t = none := by
  rw [addEdge]
  by_cases h : t = a
  · rw [if_pos h, h]
    cases gr a <;> simp
  · rw [if_neg h]

theorem addPairEdges_none_iff (r : Int) (gr : Tower → Option (List Tower))
    (p : Tower × Tower) (t : Tower) :
    addPairEdges r gr p t = none ↔ gr t = none := by
  rw [addPairEdges]
  by_cases h : is_within_range p.1 p.2 r
  · rw [if_pos h, addEdge_none_iff, addEdge_none_iff]
  · rw [if_neg h]

theorem foldl_addPairEdges_none_iff (r : Int) :
    ∀ (ps : List (Tower × Tower)) (gr : Tower → Option (List Tower)) (t : Tower),
      ps.foldl (addPairEdges r) gr t = none ↔ gr t = none := by
  intro ps
  induction ps with
  | nil => intro gr t; rfl
  | cons p ps ih =>
    intro gr t
    rw [List.foldl_cons, ih, addPairEdges_none_iff]

theorem buildGraph_none_iff (towers : List Tower) (r : Int) (t : Tower) :
    buildGraph towers r t = none ↔ t ∉ towers := by
  rw [buildGraph, foldl_addPairEdges_none_iff]
  by_cases h : t ∈ towers
  · simp [h]
  · simp [h]

/-- Soundness invariant of the graph-building fold: adjacency lists
only hold towers within range of their key. -/
def GraphSound (towers : List Tower) (r : Int)
    (gr : Tower → Option (List Tower)) : Prop :=
  ∀ a l, gr a = some l → ∀ b ∈ l, b ∈ towers ∧ is_within_range a b r

theorem addEdge_sound {towers : List Tower} {r : Int}
    {gr : Tower → Option (List Tower)} (hs : GraphSound towers r gr)
    {a0 b0 : Tower} (hb0 : b0 ∈ towers) (hw : is_within_range a0 b0 r) :
    GraphSound towers r (addEdge gr a0 b0) := by
  intro a l hl b hb
  rw [addEdge] at hl
  by_cases ha : a = a0
  · rw [if_pos ha] at hl
    match hga : gr a0 with
    | none =>
      rw [hga] at hl
      exact absurd hl (by simp)
    | some l0 =>
      rw [hga] at hl
      have hl2 : l0 ++ [b0] = l := by
        have := hl
        simpa using this
      rcases hl2 with rfl
      rcases List.mem_append.mp hb with hb | hb
      · exact hs a0 l0 hga b hb |>.imp id (fun h => ha ▸ h)
      · rcases List.mem_singleton.mp hb with rfl
        exact ⟨hb0, ha ▸ hw⟩
  · rw [if_neg ha] at hl
    exact hs a l hl b hb

theorem addPairEdges_sound {towers : List Tower} {r : Int}
    {gr : Tower → Option (List Tower)} (hs : GraphSound towers r gr)
    {p : Tower × Tower} (hp1 : p.1 ∈ towers) (hp2 : p.2 ∈ towers) :
    GraphSound towers r (addPairEdges r gr p) := by
  rw [addPairEdges]
  by_cases hw : is_within_range p.1 p.2 r
  · rw [if_pos hw]
    exact addEdge_sound (addEdge_sound hs hp2 hw) hp1 (is_within_range_symm hw)
  · rw [if_neg hw]
    exact hs

theorem foldl_addPairEdges_sound {towers : List Tower} {r : Int} :
    ∀ (ps : List (Tower × Tower)) (gr : Tower → Option (List Tower)),
      (∀ p ∈ ps, p.1 ∈ towers ∧ p.2 ∈ towers) → GraphSound towers r gr →
      GraphSound towers r (ps.foldl (addPairEdges r) gr) := by
  intro ps
  induction ps with
  | nil => intro gr hps hs; exact hs
  | cons p ps ih =>
    intro gr hps hs
    rw [List.foldl_cons]
    refine ih _ (fun q hq => hps q (List.mem_cons_of_mem p hq)) ?_
    obtain ⟨h1, h2⟩ := hps p (List.mem_cons_self p ps)
    exact addPairEdges_sound hs h1 h2

theorem buildGraph_sound (towers : List Tower) (r : Int) :
    GraphSound towers r (buildGraph towers r) := by
  rw [buildGraph]
  refine foldl_addPairEdges_sound _ _ (fun p hp => mem_indexPairs towers p hp) ?_
  intro a l hl b hb
  dsimp only at hl
  by_cases h : a ∈ towers
  · rw [if_pos h] at hl
    have : ([] : List Tower) = l := by simpa using hl
    rcases this with rfl
    simp at hb
  · rw [if_neg h] at hl
    exact absurd hl (by simp)

theorem addEdge_gedge_mono {gr : Tower → Option (List Tower)} (a b : Tower)
    {u w : Tower} (h : GEdge gr u w) : GEdge (addEdge gr a b) u w := by
  obtain ⟨l, hl, hw⟩ := h
  by_cases hu : u = a
  · refine ⟨l ++ [b], ?_, by simp [hw]⟩
    rw [addEdge, if_pos hu, ← hu, hl]
    rfl
  · refine ⟨l, ?_, hw⟩
    rw [addEdge, if_neg hu]
    exact hl

theorem addPairEdges_gedge_mono {r : Int} {gr : Tower → Option (List Tower)}
    (p : Tower × Tower) {u w : Tower} (h : GEdge gr u w) :
    GEdge (addPairEdges r gr p) u w := by
  rw [addPairEdges]
  by_cases hw : is_within_range p.1 p.2 r
  · rw [if_pos hw]
    exact addEdge_gedge_mono p.2 p.1 (addEdge_gedge_mono p.1 p.2 h)
  · rw [if_neg hw]
    exact h

theorem foldl_addPairEdges_gedge_mono {r : Int} :
    ∀ (ps : List (Tower × Tower)) (gr : Tower → Option (List Tower))
      {u w : Tower}, GEdge gr u w →
      GEdge (ps.foldl (addPairEdges r) gr) u w := by
  intro ps
  induction ps with
  | nil => intro gr u w h; exact h
  | cons p ps ih =>
    intro gr u w h
    rw [List.foldl_cons]
    exact ih _ (addPairEdges_gedge_mono p h)

theorem addEdge_some_of_some {gr : Tower → Option (List Tower)} (a b t : Tower)
    (h : gr t ≠ none) : addEdge gr a b t ≠ none := by
  rw [Ne, addEdge_none_iff]
  exact h

theorem addTwo_gedge {gr : Tower → Option (List Tower)} {a b : Tower}
    (hne : a ≠ b) (hla : gr a ≠ none) (hlb : gr b ≠ none) :
    GEdge (addEdge (addEdge gr a b) b a) a b ∧
    GEdge (addEdge (addEdge gr a b) b a) b a := by
  match hga : gr a with
  | none => exact absurd hga hla
  | some la =>
    constructor
    · refine addEdge_gedge_mono b a ⟨la ++ [b], ?_, by simp⟩
      rw [addEdge, if_pos rfl, hga]
      rfl
    · match hgb : gr b with
      | none => exact absurd hgb hlb
      | some lb =>
        refine ⟨lb ++ [a], ?_, by simp⟩
        rw [addEdge, if_pos rfl, addEdge, if_neg (Ne.symm hne), hgb]
        rfl

theorem buildGraph_complete {towers : List Tower} {r : Int} {a b : Tower}
    (h : Adj towers r a b) : GEdge (buildGraph towers r) a b := by
  obtain ⟨ha, hb, hne, hw⟩ := h
  have hinit : ∀ t ∈ towers,
      (fun t => if t ∈ towers then some ([] : List Tower) else none) t ≠ none := by
    intro t ht
    simp [ht]
  rcases indexPairs_complete towers a b ha hb hne with hp | hp
  all_goals {
    obtain ⟨l1, l2, hsplit⟩ := List.append_of_mem hp
    rw [buildGraph, hsplit, List.foldl_append, List.foldl_cons]
    refine foldl_addPairEdges_gedge_mono l2 _ ?_
    have hsna : l1.foldl (addPairEdges r)
        (fun t => if t ∈ towers then some [] else none) a ≠ none := by
      rw [Ne, foldl_addPairEdges_none_iff]
      exact hinit a ha
    have hsnb : l1.foldl (addPairEdges r)
        (fun t => if t ∈ towers then some [] else none) b ≠ none := by
      rw [Ne, foldl_addPairEdges_none_iff]
      exact hinit b hb
    rw [addPairEdges]
    first
    | { rw [if_pos hw]
        exact (addTwo_gedge hne hsna hsnb).1 }
    | { rw [if_pos (is_within_range_symm hw)]
        exact (addTwo_gedge (Ne.symm hne) hsnb hsna).2 }
  }

/-! ## Breadth-first search: paths, reachability, and loop invariants -/

/-- A queue entry's path is valid: nonempty, starts at `start`, ends at
the entry's node, and follows adjacency-list edges. -/
def ValidPath (graph : Tower → Option (List Tower)) (start : Tower)
    (p : List Tower) (v : Tower) : Prop :=
  p ≠ [] ∧ p.head? = some start ∧ p.getLast? = some v ∧
  p.Chain' (GEdge graph)

theorem validPath_extend {graph : Tower → Option (List Tower)}
    {start : Tower} {p : List Tower} {c nb : Tower}
    (h : ValidPath graph start p c) (he : GEdge graph c nb) :
    ValidPath graph start (p ++ [nb]) nb := by
  obtain ⟨hne, hhead, hlast, hchain⟩ := h
  refine ⟨by simp, ?_, ?_, ?_⟩
  · rw [List.head?_append_of_ne_nil _ hne]
    exact hhead
  · simp
  · rw [List.chain'_append]
    refine ⟨hchain, List.chain'_singleton nb, ?_⟩
    intro x hx y hy
    rw [hlast] at hx
    simp only [Option.mem_def, Option.some.injEq] at hx
    simp only [List.head?_cons, Option.mem_def, Option.some.injEq] at hy
    rw [← hx, ← hy]
    exact he

theorem gedge_graph_mem {towers : List Tower} {r : Int} {a b : Tower}
    (h : GEdge (buildGraph towers r) a b) :
    a ∈ towers ∧ b ∈ towers ∧ is_within_range a b r := by
  obtain ⟨l, hl, hb⟩ := h
  have ha : a ∈ towers := by
    by_contra hna
    rw [← buildGraph_none_iff towers r a] at hna
    rw [hna] at hl
    exact absurd hl (by simp)
  obtain ⟨hbt, hw⟩ := buildGraph_sound towers r a l hl b hb
  exact ⟨ha, hbt, hw⟩

theorem reach_prepend {towers : List Tower} {r : Int} {a w b : Tower} {n : Nat}
    (hadj : Adj towers r a w) (h : Reach towers r n w b) :
    Reach towers r (n + 1) a b := by
  induction h with
  | refl w hw => exact Reach.step (Reach.refl a hadj.1) hadj
  | step h' hadj' ih => exact Reach.step (ih hadj) hadj'

theorem reach_zero_eq {towers : List Tower} {r : Int} {a b : Tower}
    (h : Reach towers r 0 a b) : a = b := by
  cases h
  rfl

theorem reach_succ_head {towers : List Tower} {r : Int} :
    ∀ {j : Nat} {a b : Tower}, Reach towers r (j + 1) a b →
      ∃ w, Adj towers r a w ∧ Reach towers r j w b := by
  intro j
  induction j with
  | zero =>
    intro a b h
    cases h with
    | step h0 hadj =>
      have heq := reach_zero_eq h0
      subst heq
      exact ⟨b, hadj, Reach.refl b hadj.2.1⟩
  | succ j ih =>
    intro a b h
    cases h with
    | step h0 hadj =>
      obtain ⟨w, hw, hr⟩ := ih h0
      exact ⟨w, hw, Reach.step hr hadj⟩

theorem chain_reach {towers : List Tower} {r : Int} :
    ∀ (p : List Tower) (a v : Tower), p.head? = some a → p.getLast? = some v →
      p.Chain' (GEdge (buildGraph towers r)) → a ∈ towers →
      ∃ n, Reach towers r n a v := by
  intro p
  induction p with
  | nil => intro a v hh; simp at hh
  | cons x p ih =>
    intro a v hh hl hchain hat
    simp only [List.head?_cons, Option.some.injEq] at hh
    subst hh
    match p with
    | [] =>
      simp only [List.getLast?_singleton, Option.some.injEq] at hl
      subst hl
      exact ⟨0, Reach.refl x hat⟩
    | y :: p2 =>
      rw [List.chain'_cons] at hchain
      obtain ⟨hedge, hchain2⟩ := hchain
      obtain ⟨-, hyt, hwr⟩ := gedge_graph_mem hedge
      rw [List.getLast?_cons_cons] at hl
      obtain ⟨n, hn⟩ := ih y v rfl hl hchain2 hyt
      by_cases hxy : x = y
      · rw [hxy]
        exact ⟨n, hn⟩
      · exact ⟨n + 1, reach_prepend ⟨hat, hyt, hxy, hwr⟩ hn⟩

theorem bfs_fold_spec (pc : List Tower) :
    ∀ (nbrs : List Tower) (q0 : List (Tower × List Tower))
      (vis0 : Finset Tower),
      ∃ (new : List (Tower × List Tower)) (vis1 : Finset Tower),
        nbrs.foldl
          (fun (acc : List (Tower × List Tower) × Finset Tower) nb =>
            if nb ∈ acc.2 then acc
            else (acc.1 ++ [(nb, pc ++ [nb])], insert nb acc.2)) (q0, vis0) =
          (q0 ++ new, vis1) ∧
        (∀ e ∈ new, ∃ nb ∈ nbrs, e = (nb, pc ++ [nb])) ∧
        vis0 ⊆ vis1 ∧
        (∀ t ∈ vis1, t ∈ vis0 ∨ ∃ e ∈ new, e.1 = t) ∧
        (∀ nb ∈ nbrs, nb ∈ vis1) ∧
        (∀ e ∈ new, e.1 ∈ vis1 ∧ e.1 ∉ vis0) ∧
        vis1.card = vis0.card + new.length := by
  intro nbrs
  induction nbrs with
  | nil =>
    intro q0 vis0
    refine ⟨[], vis0, by simp, by simp, Finset.Subset.refl vis0, ?_, by simp,
      by simp, by simp⟩
    intro t ht
    exact Or.inl ht
  | cons nb nbrs ih =>
    intro q0 vis0
    rw [List.foldl_cons]
    by_cases hv : nb ∈ vis0
    · rw [if_pos hv]
      obtain ⟨new, vis1, heq, hmem, hsub, hdec, hall, hfresh, hcard⟩ :=
        ih q0 vis0
      refine ⟨new, vis1, heq, ?_, hsub, hdec, ?_, hfresh, hcard⟩
      · intro e he
        obtain ⟨nb2, hnb2, he2⟩ := hmem e he
        exact ⟨nb2, List.mem_cons_of_mem nb hnb2, he2⟩
      · intro nb2 hnb2
        rcases List.mem_cons.mp hnb2 with rfl | h
        · exact hsub hv
        · exact hall nb2 h
    · rw [if_neg hv]
      obtain ⟨new, vis1, heq, hmem, hsub, hdec, hall, hfresh, hcard⟩ :=
        ih (q0 ++ [(nb, pc ++ [nb])]) (insert nb vis0)
      refine ⟨(nb, pc ++ [nb]) :: new, vis1, ?_, ?_, ?_, ?_, ?_, ?_, ?_⟩
      · rw [heq, List.append_assoc, List.singleton_append]
      · intro e he
        rcases List.mem_cons.mp he with rfl | he
        · exact ⟨nb, List.mem_cons_self nb nbrs, rfl⟩
        · obtain ⟨nb2, hnb2, he2⟩ := hmem e he
          exact ⟨nb2, List.mem_cons_of_mem nb hnb2, he2⟩
      · exact fun t ht => hsub (Finset.mem_insert_of_mem ht)
      · intro t ht
        rcases hdec t ht with ht2 | ⟨e, he, het⟩
        · rcases Finset.mem_insert.mp ht2 with rfl | ht3
          · exact Or.inr ⟨(t, pc ++ [t]), List.mem_cons_self _ _, rfl⟩
          · exact Or.inl ht3
        · exact Or.inr ⟨e, List.mem_cons_of_mem _ he, het⟩
      · intro nb2 hnb2
        rcases List.mem_cons.mp hnb2 with rfl | h
        · exact hsub (Finset.mem_insert_self nb2 vis0)
        · exact hall nb2 h
      · intro e he
        rcases List.mem_cons.mp he with rfl | he
        · exact ⟨hsub (Finset.mem_insert_self nb vis0), hv⟩
        · obtain ⟨h1, h2⟩ := hfresh e he
          exact ⟨h1, fun hmem0 => h2 (Finset.mem_insert_of_mem hmem0)⟩
      · rw [hcard, Finset.card_insert_of_not_mem hv]
        simp [Nat.add_comm, Nat.add_assoc, Nat.add_left_comm]

theorem bfs_loop_sound (graph : Tower → Option (List Tower))
    (start endT : Tower) :
    ∀ (fuel : Nat) (q : List (Tower × List Tower)) (vis : Finset Tower),
      (∀ e ∈ q, ValidPath graph start e.2 e.1) →
      ∀ p, bfs_loop graph endT fuel q vis = .ok (some p) →
      ValidPath graph start p endT := by
  intro fuel
  induction fuel with
  | zero =>
    intro q vis hq p hres
    match q with
    | [] =>
      rw [bfs_loop] at hres
      exact absurd hres (by simp)
    | e :: rest =>
      rw [bfs_loop] at hres
      exact absurd hres (by simp)
  | succ fuel ih =>
    intro q vis hq p hres
    match q with
    | [] =>
      rw [bfs_loop] at hres
      exact absurd hres (by simp)
    | (c, pc) :: rest =>
      rw [bfs_loop] at hres
      by_cases hend : c = endT
      · rw [if_pos hend] at hres
        have hpc : pc = p := by simpa using hres
        have hv := hq (c, pc) (List.mem_cons_self _ _)
        rw [hend] at hv
        rw [← hpc]
        exact hv
      · rw [if_neg hend] at hres
        match hgc : graph c with
        | none =>
          rw [hgc] at hres
          exact absurd hres (by simp)
        | some nbrs =>
          rw [hgc] at hres
          dsimp only at hres
          obtain ⟨new, vis1, heq, hmem, -, -, -, -, -⟩ :=
            bfs_fold_spec pc nbrs rest vis
          rw [heq] at hres
          refine ih (rest ++ new) vis1 ?_ p hres
          intro e he
          rcases List.mem_append.mp he with he | he
          · exact hq e (List.mem_cons_of_mem _ he)
          · obtain ⟨nb, hnb, rfl⟩ := hmem e he
            exact validPath_extend (hq (c, pc) (List.mem_cons_self _ _))
              ⟨nbrs, hgc, hnb⟩

theorem bfs_loop_no_error (graph : Tower → Option (List Tower))
    (endT : Tower) (ts : List Tower)
    (hkeys : ∀ t ∈ ts, graph t ≠ none)
    (hnb : ∀ a l, graph a = some l → ∀ b ∈ l, b ∈ ts) :
    ∀ (fuel : Nat) (q : List (Tower × List Tower)) (vis : Finset Tower),
      (∀ e ∈ q, e.1 ∈ ts) →
      ∃ o, bfs_loop graph endT fuel q vis = .ok o := by
  intro fuel
  induction fuel with
  | zero =>
    intro q vis hq
    match q with
    | [] => exact ⟨none, by rw [bfs_loop]⟩
    | e :: rest => exact ⟨none, by rw [bfs_loop]⟩
  | succ fuel ih =>
    intro q vis hq
    match q with
    | [] => exact ⟨none, by rw [bfs_loop]⟩
    | (c, pc) :: rest =>
      by_cases hend : c = endT
      · refine ⟨some pc, ?_⟩
        rw [bfs_loop, if_pos hend]
      · match hgc : graph c with
        | none =>
          exact absurd hgc (hkeys c (hq (c, pc) (List.mem_cons_self _ _)))
        | some nbrs =>
          obtain ⟨new, vis1, heq, hmem, -, -, -, -, -⟩ :=
            bfs_fold_spec pc nbrs rest vis
          have hq2 : ∀ e ∈ rest ++ new, e.1 ∈ ts := by
            intro e he
            rcases List.mem_append.mp he with he | he
            · exact hq e (List.mem_cons_of_mem _ he)
            · obtain ⟨nb, hnb2, rfl⟩ := hmem e he
              exact hnb c nbrs hgc nb hnb2
          obtain ⟨o, ho⟩ := ih (rest ++ new) vis1 hq2
          refine ⟨o, ?_⟩
          rw [bfs_loop, if_neg hend, hgc]
          dsimp only
          rw [heq]
          exact ho

theorem bfs_loop_fuel_stable (graph : Tower → Option (List Tower))
    (endT : Tower) (ts : Finset Tower)
    (hnb : ∀ a l, graph a = some l → ∀ b ∈ l, b ∈ ts) :
    ∀ (fuel : Nat) (q : List (Tower × List Tower)) (vis : Finset Tower),
      vis ⊆ ts → q.length + ts.card ≤ fuel + vis.card →
      bfs_loop graph endT fuel q vis =
        bfs_loop graph endT (fuel + 1) q vis := by
  intro fuel
  induction fuel with
  | zero =>
    intro q vis hvs hcard
    have hvc : vis.card ≤ ts.card := Finset.card_le_card hvs
    have hq : q = [] := by
      rw [← List.length_eq_zero]
      omega
    subst hq
    rw [bfs_loop, bfs_loop]
  | succ fuel ih =>
    intro q vis hvs hcard
    match q with
    | [] => rw [bfs_loop, bfs_loop]
    | (c, pc) :: rest =>
      rw [bfs_loop, bfs_loop]
      by_cases hend : c = endT
      · rw [if_pos hend, if_pos hend]
      · rw [if_neg hend, if_neg hend]
        match hgc : graph c with
        | none => rfl
        | some nbrs =>
          dsimp only
          obtain ⟨new, vis1, heq, hmem, hsub, hdec, -, -, hcard1⟩ :=
            bfs_fold_spec pc nbrs rest vis
          rw [heq]
          have hvs1 : vis1 ⊆ ts := by
            intro t ht
            rcases hdec t ht with ht | ⟨e, he, het⟩
            · exact hvs ht
            · obtain ⟨nb, hnb2, rfl⟩ := hmem e he
              rw [← het]
              exact hnb c nbrs hgc nb hnb2
          refine ih (rest ++ new) vis1 hvs1 ?_
          have hql : ((c, pc) :: rest).length = rest.length + 1 := rfl
          rw [List.length_append]
          omega

/-- `t` has an entry in the BFS queue. -/
def HasEntry (q : List (Tower × List Tower)) (t : Tower) : Prop :=
  ∃ pp, (t, pp) ∈ q

/-- The BFS queue consists of a block of paths of one length followed
by a block of paths one longer (FIFO processing explores in
non-decreasing depth). -/
def TwoBlock (q : List (Tower × List Tower)) (d : Nat) : Prop :=
  ∃ A B, q = A ++ B ∧ (∀ e ∈ A, e.2.length = d) ∧
    (∀ e ∈ B, e.2.length = d + 1)

/-- Every discovered node (visited, or the start node) either still has
a queue entry or has had all its neighbors marked visited. -/
def BfsClosure (graph : Tower → Option (List Tower)) (start : Tower)
    (q : List (Tower × List Tower)) (vis : Finset Tower) : Prop :=
  ∀ t, (t ∈ vis ∨ t = start) →
    HasEntry q t ∨ (∀ b, GEdge graph t b → b ∈ vis)

/-- Every walk from `start` to `end` is intercepted by a queue entry
whose recorded path plus remaining walk is no longer than the walk
plus one. -/
def BfsCut (towers : List Tower) (r : Int) (start endT : Tower)
    (q : List (Tower × List Tower)) : Prop :=
  ∀ n, Reach towers r n start endT →
    ∃ e ∈ q, ∃ j, Reach towers r j e.1 endT ∧ e.2.length + j ≤ n + 1

theorem twoBlock_bounds {q : List (Tower × List Tower)} {d : Nat}
    (h : TwoBlock q d) : ∀ e ∈ q, d ≤ e.2.length ∧ e.2.length ≤ d + 1 := by
  obtain ⟨A, B, rfl, hA, hB⟩ := h
  intro e he
  rcases List.mem_append.mp he with he | he
  · rw [hA e he]; omega
  · rw [hB e he]; omega

theorem twoBlock_head_min {c : Tower} {pc : List Tower}
    {rest : List (Tower × List Tower)} {d : Nat}
    (h : TwoBlock ((c, pc) :: rest) d) :
    ∀ e ∈ (c, pc) :: rest, pc.length ≤ e.2.length := by
  obtain ⟨A, B, hsplit, hA, hB⟩ := h
  intro e he
  rcases A with _ | ⟨a, A2⟩
  · rw [List.nil_append] at hsplit
    have h1 : pc.length = d + 1 := by
      have := hB (c, pc) (by rw [← hsplit]; exact List.mem_cons_self _ _)
      exact this
    have h2 := hB e (by rw [← hsplit]; exact he)
    omega
  · rw [List.cons_append] at hsplit
    injection hsplit with hh ht
    have h1 : pc.length = d := by
      have := hA a (List.mem_cons_self _ _)
      rw [← hh] at this
      exact this
    rcases List.mem_cons.mp he with rfl | he2
    · exact Nat.le_refl _
    · rw [ht] at he2
      rcases List.mem_append.mp he2 with he3 | he3
      · rw [hA e (List.mem_cons_of_mem _ he3)]; omega
      · rw [hB e he3]; omega

theorem twoBlock_step {c : Tower} {pc : List Tower}
    {rest new : List (Tower × List Tower)} {d : Nat}
    (h : TwoBlock ((c, pc) :: rest) d)
    (hnew : ∀ e ∈ new, e.2.length = pc.length + 1) :
    TwoBlock (rest ++ new) pc.length := by
  obtain ⟨A, B, hsplit, hA, hB⟩ := h
  rcases A with _ | ⟨a, A2⟩
  · rw [List.nil_append] at hsplit
    have hpc : pc.length = d + 1 := by
      have := hB (c, pc) (by rw [← hsplit]; exact List.mem_cons_self _ _)
      exact this
    refine ⟨rest, new, rfl, ?_, hnew⟩
    intro e he
    have := hB e (by rw [← hsplit]; exact List.mem_cons_of_mem _ he)
    omega
  · rw [List.cons_append] at hsplit
    injection hsplit with hh ht
    have hpc : pc.length = d := by
      have := hA a (List.mem_cons_self _ _)
      rw [← hh] at this
      exact this
    refine ⟨A2, B ++ new, by rw [ht, List.append_assoc], ?_, ?_⟩
    · intro e he
      have := hA e (List.mem_cons_of_mem _ he)
      omega
    · intro e he
      rcases List.mem_append.mp he with he | he
      · have := hB e he; omega
      · have := hnew e he; omega

theorem bfs_jump {towers : List Tower} {r : Int}
    {graph : Tower → Option (List Tower)}
    (hcomp : ∀ a b, Adj towers r a b → GEdge graph a b)
    {start endT : Tower} {q : List (Tower × List Tower)} {vis : Finset Tower}
    {D : Nat}
    (hlen : ∀ e ∈ q, e.2.length ≤ D)
    (hclos : BfsClosure graph start q vis)
    (hne : (endT ∈ vis ∨ endT = start) → HasEntry q endT) :
    ∀ (j : Nat) (u : Tower), (u ∈ vis ∨ u = start) →
      Reach towers r j u endT →
      ∃ e ∈ q, ∃ j2, Reach towers r j2 e.1 endT ∧
        e.2.length + j2 ≤ D + j := by
  intro j
  induction j with
  | zero =>
    intro u hu hr
    have heq : u = endT := reach_zero_eq hr
    subst heq
    obtain ⟨pp, hpp⟩ := hne hu
    refine ⟨(u, pp), hpp, 0, hr, ?_⟩
    have := hlen (u, pp) hpp
    omega
  | succ j ihj =>
    intro u hu hr
    rcases hclos u hu with ⟨pp, hpp⟩ | hcl
    · refine ⟨(u, pp), hpp, j + 1, hr, ?_⟩
      have := hlen (u, pp) hpp
      omega
    · obtain ⟨w, hadj, hrw⟩ := reach_succ_head hr
      have hwv : w ∈ vis := hcl w (hcomp u w hadj)
      obtain ⟨e, he, j2, hrj, hl2⟩ := ihj w (Or.inl hwv) hrw
      refine ⟨e, he, j2, hrj, ?_⟩
      omega

theorem bfs_loop_min {towers : List Tower} {r : Int}
    (graph : Tower → Option (List Tower))
    (hcomp : ∀ a b, Adj towers r a b → GEdge graph a b)
    (start endT : Tower) :
    ∀ (fuel : Nat) (q : List (Tower × List Tower)) (vis : Finset Tower)
      (d : Nat),
      TwoBlock q d →
      BfsClosure graph start q vis →
      ((endT ∈ vis ∨ endT = start) → HasEntry q endT) →
      BfsCut towers r start endT q →
      ∀ p, bfs_loop graph endT fuel q vis = .ok (some p) →
      ∀ n, Reach towers r n start endT → p.length ≤ n + 1 := by
  intro fuel
  induction fuel with
  | zero =>
    intro q vis d htb hclos hne hcut p hres
    match q with
    | [] =>
      rw [bfs_loop] at hres
      exact absurd hres (by simp)
    | e :: rest =>
      rw [bfs_loop] at hres
      exact absurd hres (by simp)
  | succ fuel ih =>
    intro q vis d htb hclos hne hcut p hres n hreach
    match q with
    | [] =>
      rw [bfs_loop] at hres
      exact absurd hres (by simp)
    | (c, pc) :: rest =>
      rw [bfs_loop] at hres
      by_cases hend : c = endT
      · rw [if_pos hend] at hres
        have hpc : pc = p := by simpa using hres
        subst hpc
        obtain ⟨e, he, j, hrj, hlenj⟩ := hcut n hreach
        have hmin := twoBlock_head_min htb e he
        omega
      · rw [if_neg hend] at hres
        match hgc : graph c with
        | none =>
          rw [hgc] at hres
          exact absurd hres (by simp)
        | some nbrs =>
          rw [hgc] at hres
          dsimp only at hres
          obtain ⟨new, vis1, heq, hmem, hsub, hdec, hall, hfresh, -⟩ :=
            bfs_fold_spec pc nbrs rest vis
          rw [heq] at hres
          have hnew_len : ∀ e ∈ new, e.2.length = pc.length + 1 := by
            intro e he
            obtain ⟨nb, -, rfl⟩ := hmem e he
            simp
          have htb2 : TwoBlock (rest ++ new) pc.length :=
            twoBlock_step htb hnew_len
          have hold : ∀ t, t ≠ c → (t ∈ vis ∨ t = start) →
              HasEntry (rest ++ new) t ∨
              (∀ b, GEdge graph t b → b ∈ vis1) := by
            intro t htc ht0
            rcases hclos t ht0 with ⟨pp, hpp⟩ | hcl
            · rcases List.mem_cons.mp hpp with heq2 | hppr
              · exact absurd (congrArg Prod.fst heq2) htc
              · exact Or.inl ⟨pp, List.mem_append.mpr (Or.inl hppr)⟩
            · exact Or.inr (fun b hb => hsub (hcl b hb))
          have hnewEntry : ∀ t, (∃ e ∈ new, e.1 = t) →
              HasEntry (rest ++ new) t := by
            rintro t ⟨e, he, het⟩
            refine ⟨e.2, ?_⟩
            have hte : (t, e.2) = e := by
              rw [← het]
            rw [hte]
            exact List.mem_append.mpr (Or.inr he)
          have hclos2 : BfsClosure graph start (rest ++ new) vis1 := by
            intro t ht
            by_cases htc : t = c
            · refine Or.inr ?_
              intro b hb
              obtain ⟨l, hl, hbl⟩ := hb
              rw [htc, hgc] at hl
              injection hl with hl
              rw [← hl] at hbl
              exact hall b hbl
            · rcases ht with htv | hts
              · rcases hdec t htv with htv0 | hnew2
                · exact hold t htc (Or.inl htv0)
                · exact Or.inl (hnewEntry t hnew2)
              · exact hold t htc (Or.inr hts)
          have hne2 : (endT ∈ vis1 ∨ endT = start) →
              HasEntry (rest ++ new) endT := by
            intro ht
            have htc : endT ≠ c := fun h => hend h.symm
            rcases ht with htv | hts
            · rcases hdec endT htv with htv0 | hnew2
              · obtain ⟨pp, hpp⟩ := hne (Or.inl htv0)
                rcases List.mem_cons.mp hpp with heq2 | hppr
                · exact absurd (congrArg Prod.fst heq2) htc
                · exact ⟨pp, List.mem_append.mpr (Or.inl hppr)⟩
              · exact hnewEntry endT hnew2
            · obtain ⟨pp, hpp⟩ := hne (Or.inr hts)
              rcases List.mem_cons.mp hpp with heq2 | hppr
              · exact absurd (congrArg Prod.fst heq2) htc
              · exact ⟨pp, List.mem_append.mpr (Or.inl hppr)⟩
          have hcut2 : BfsCut towers r start endT (rest ++ new) := by
            intro n2 hreach2
            obtain ⟨e, he, j, hrj, hlenj⟩ := hcut n2 hreach2
            rcases List.mem_cons.mp he with heq2 | her
            · have he1 : e.1 = c := congrArg Prod.fst heq2
              have he2 : e.2 = pc := congrArg Prod.snd heq2
              rw [he1] at hrj
              rw [he2] at hlenj
              match j, hrj, hlenj with
              | 0, hrj, hlenj => exact absurd (reach_zero_eq hrj) hend
              | jj + 1, hrj, hlenj =>
                obtain ⟨w, hadj, hrw⟩ := reach_succ_head hrj
                have hw_nbrs : w ∈ nbrs := by
                  obtain ⟨l, hl, hwl⟩ := hcomp c w hadj
                  rw [hgc] at hl
                  injection hl with hl
                  rw [hl]
                  exact hwl
                have hwvis : w ∈ vis1 := hall w hw_nbrs
                have hlen2 : ∀ e2 ∈ rest ++ new, e2.2.length ≤ pc.length + 1 :=
                  fun e2 he2 => (twoBlock_bounds htb2 e2 he2).2
                obtain ⟨e2, he2, j2, hrj2, hlenj2⟩ :=
                  bfs_jump hcomp hlen2 hclos2 hne2 jj w (Or.inl hwvis) hrw
                refine ⟨e2, he2, j2, hrj2, ?_⟩
                omega
            · exact ⟨e, List.mem_append.mpr (Or.inl her), j, hrj, hlenj⟩
          exact ih (rest ++ new) vis1 pc.length htb2 hclos2 hne2 hcut2
            p hres n hreach

theorem fsp_self (g : CityGrid) (s : Tower) (r : Int) :
    find_shortest_path g s s r = .ok (some [s]) := by
  rw [find_shortest_path, breadth_first, bfs_loop, if_pos rfl]

theorem fsp_found_valid {g : CityGrid} {s e : Tower} {r : Int} {p : List Tower}
    (h : find_shortest_path g s e r = .ok (some p)) :
    ValidPath (buildGraph g.towers r) s p e := by
  rw [find_shortest_path, breadth_first] at h
  refine bfs_loop_sound _ s e _ _ _ ?_ p h
  intro en hen
  rcases List.mem_singleton.mp hen with rfl
  exact ⟨by simp, by simp, by simp, List.chain'_singleton s⟩

theorem fsp_found_min {g : CityGrid} {s e : Tower} {r : Int} {p : List Tower}
    (h : find_shortest_path g s e r = .ok (some p)) :
    ∀ n, Reach g.towers r n s e → p.length ≤ n + 1 := by
  rw [find_shortest_path, breadth_first] at h
  refine bfs_loop_min _ (fun a b hab => buildGraph_complete hab) s e _ _ _ 1
    ?_ ?_ ?_ ?_ p h
  · exact ⟨[(s, [s])], [], by simp, by simp, by simp⟩
  · intro t ht
    rcases ht with h0 | heq
    · exact absurd h0 (Finset.not_mem_empty t)
    · refine Or.inl ⟨[s], ?_⟩
      rw [heq]
      exact List.mem_singleton_self _
  · intro ht
    rcases ht with h0 | heq
    · exact absurd h0 (Finset.not_mem_empty e)
    · refine ⟨[s], ?_⟩
      rw [heq]
      exact List.mem_singleton_self _
  · intro n hr
    exact ⟨(s, [s]), List.mem_singleton_self _, n, hr, by simp [Nat.add_comm]⟩

theorem fsp_no_error (g : CityGrid) (s e : Tower) (r : Int)
    (hs : s ∈ g.towers) :
    ∃ o, find_shortest_path g s e r = .ok o := by
  rw [find_shortest_path, breadth_first]
  refine bfs_loop_no_error _ e g.towers ?_ ?_ _ _ _ ?_
  · intro t ht
    rw [Ne, buildGraph_none_iff]
    simp [ht]
  · intro a l hl b hb
    exact (buildGraph_sound g.towers r a l hl b hb).1
  · intro en hen
    rcases List.mem_singleton.mp hen with rfl
    exact hs

theorem fsp_unreachable_none (g : CityGrid) (s e : Tower) (r : Int)
    (hs : s ∈ g.towers) (hur : ¬ ∃ n, Reach g.towers r n s e) :
    find_shortest_path g s e r = .ok none := by
  obtain ⟨o, ho⟩ := fsp_no_error g s e r hs
  match o with
  | none => exact ho
  | some p =>
    obtain ⟨hnep, hh, hl, hch⟩ := fsp_found_valid ho
    obtain ⟨n, hn⟩ := chain_reach p s e hh hl hch hs
    exact absurd ⟨n, hn⟩ hur

theorem fsp_keyerror (g : CityGrid) (s e : Tower) (r : Int)
    (hs : s ∉ g.towers) (hne : s ≠ e) :
    find_shortest_path g s e r = .error .keyError := by
  rw [find_shortest_path, breadth_first, bfs_loop, if_neg hne]
  have hnone : buildGraph g.towers r s = none :=
    (buildGraph_none_iff _ _ _).mpr hs
  rw [hnone]

theorem validPath_within_range {towers : List Tower} {r : Int}
    {start : Tower} {p : List Tower} {v : Tower}
    (h : ValidPath (buildGraph towers r) start p v) :
    p.Chain' (fun a b => is_within_range a b r) :=
  List.Chain'.imp (fun _ _ hab => (gedge_graph_mem hab).2.2) h.2.2.2

/-! ## Shared helpers for the claim theorems -/

/-- Chebyshev distance between a grid cell and the (integer) center of
a tower. -/
def chebDist (p : Nat × Nat) (x y : Int) : Int :=
  max |(p.1 : Int) - x| |(p.2 : Int) - y|

theorem inWindow_iff_cheb {g : CityGrid} {x y r : Int} {p : Nat × Nat}
    (hp1 : p.1 < g.n) (hp2 : p.2 < g.m) :
    inWindow g x y r p ↔ chebDist p x y ≤ r := by
  have h1 : ((p.1 : Int)) < (g.n : Int) := by exact_mod_cast hp1
  have h2 : ((p.2 : Int)) < (g.m : Int) := by exact_mod_cast hp2
  have h3 : (0 : Int) ≤ (p.1 : Int) := Int.natCast_nonneg _
  have h4 : (0 : Int) ≤ (p.2 : Int) := Int.natCast_nonneg _
  rw [inWindow, chebDist]
  simp only [max_le_iff, lt_min_iff, abs_le, sup_le_iff, lt_inf_iff]
  omega

theorem resolveIdx_eq_none {size : Nat} {v : Int} :
    resolveIdx size v = none ↔ v < -(size : Int) ∨ (size : Int) ≤ v := by
  rw [resolveIdx]
  by_cases h1 : 0 ≤ v ∧ v < (size : Int)
  · rw [if_pos h1]
    constructor
    · intro h; exact absurd h (by simp)
    · intro h; omega
  · rw [if_neg h1]
    by_cases h2 : -(size : Int) ≤ v ∧ v < 0
    · rw [if_pos h2]
      constructor
      · intro h; exact absurd h (by simp)
      · intro h; omega
    · rw [if_neg h2]
      constructor
      · intro h; omega
      · intro h; rfl

theorem reach_target_mem {towers : List Tower} {r : Int} {n : Nat}
    {a b : Tower} (h : Reach towers r n a b) : b ∈ towers := by
  cases h with
  | refl a ha => exact ha
  | step h2 hadj => exact hadj.2.1

/-! ## Claim theorems -/

/-- The small tower type of the source's catalog. -/
def tSmall : TowerType := ⟨"small", 1, 15⟩

/-- A concrete 1×5 all-free grid with budget 30 and a one-type catalog;
`place_towers` commits (0,1) and then (0,3). -/
def gridW : CityGrid := ⟨1, 5, fun _ _ => 0, [], 30, [tSmall]⟩

/-- C1: for every grid, catalog and (non-negative) initial budget,
after `place_towers` finishes the total cost of the committed
placements is at most the initial budget, and the budget counter is
never negative at any point during the loop (every intermediate state
is the argument of some recursive `place_towers_loop` call, covered by
the third conjunct); a tower type is a scan candidate only when its
cost is at most the remaining budget (fourth conjunct).  The committed
placements are exactly the appended tower coordinates (last
conjunct). -/
theorem budget_never_exceeded (g : CityGrid) (hb : 0 ≤ g.budget) :
    costSum (place_towers g).2 ≤ g.budget ∧
    0 ≤ (place_towers g).1.budget ∧
    (∀ (fuel : Nat) (g2 : CityGrid) (u : Finset (Nat × Nat)),
      0 ≤ g2.budget → 0 ≤ (place_towers_loop fuel g2 u).1.budget) ∧
    (∀ c ∈ scanPairs g, c.2.2.cost ≤ g.budget) ∧
    (place_towers g).1.towers =
      g.towers ++ (place_towers g).2.map
        (fun c => ((c.1 : Int), (c.2.1 : Int))) := by
  rw [place_towers]
  refine ⟨?_, ?_, ?_, ?_, ?_⟩
  · have h1 := place_towers_loop_budget ((uncovered_init g).card + 1) g
      (uncovered_init g)
    have h2 := place_towers_loop_budget_nonneg ((uncovered_init g).card + 1) g
      (uncovered_init g) hb
    omega
  · exact place_towers_loop_budget_nonneg _ _ _ hb
  · intro fuel g2 u h
    exact place_towers_loop_budget_nonneg fuel g2 u h
  · intro c hc
    exact (mem_scanPairs.mp hc).2.1
  · exact place_towers_loop_towers_eq _ _ _

theorem budget_never_exceeded_witness :
    (0 : Int) ≤ gridW.budget ∧
    costSum (place_towers gridW).2 ≤ gridW.budget :=
  ⟨by decide, (budget_never_exceeded gridW (by decide)).1⟩

/-- A concrete 1×3 all-free grid with budget 45 and the source's full
catalog; the first scan selects the small tower at (0,1). -/
def gridW3 : CityGrid := ⟨1, 3, fun _ _ => 0, [], 45, defaultTowerTypes⟩

/-- C2: whenever an optimizer iteration selects a pair (the loop body
commits exactly `(selectBest g u).2`, by definition of
`place_towers_loop`), that pair is a Free in-bounds cell with an
affordable catalog type, its value is strictly positive (a value-0
candidate is never selected), it attains the maximum value among all
Free-cell/affordable-type pairs, and it is the first pair attaining
that value in the scan order (tower types in catalog-declaration
order, cells row-major within each type): every earlier scanned pair
has strictly smaller value. -/
theorem greedy_selection_rule (g : CityGrid) (u : Finset (Nat × Nat))
    (x y : Nat) (t : TowerType)
    (hsel : (selectBest g u).2 = some (x, y, t)) :
    (x < g.n ∧ y < g.m ∧ g.grid x y = 0 ∧ t ∈ g.tower_types ∧
      t.cost ≤ g.budget) ∧
    0 < candValue g u (x, y, t) ∧
    (∀ x2 y2 t2, x2 < g.n → y2 < g.m → g.grid x2 y2 = 0 →
      t2 ∈ g.tower_types → t2.cost ≤ g.budget →
      candValue g u (x2, y2, t2) ≤ candValue g u (x, y, t)) ∧
    (∃ l1 l2, scanPairs g = l1 ++ (x, y, t) :: l2 ∧
      ∀ c ∈ l1, candValue g u c < candValue g u (x, y, t)) := by
  obtain ⟨hmem1, hcost1, hx, hy, hfree⟩ :=
    mem_scanPairs.mp (selectBest_mem g u _ hsel)
  obtain ⟨l1, l2, hsplit, hpos, h1, h2⟩ := selectBest_some g u _ hsel
  refine ⟨⟨hx, hy, hfree, hmem1, hcost1⟩, hpos, ?_, ⟨l1, l2, hsplit, h1⟩⟩
  intro x2 y2 t2 hb1 hb2 hb3 hb4 hb5
  exact selectBest_max g u _ hsel (x2, y2, t2)
    (mem_scanPairs.mpr ⟨hb4, hb5, hb1, hb2, hb3⟩)

theorem greedy_selection_rule_witness :
    (selectBest gridW3 (uncovered_init gridW3)).2 = some (0, 1, tSmall) ∧
    0 < candValue gridW3 (uncovered_init gridW3) (0, 1, tSmall) :=
  ⟨by decide, (greedy_selection_rule gridW3 (uncovered_init gridW3) 0 1 tSmall
    (by decide)).2.1⟩

/-- The state reached after the first `place_towers` iteration on
`gridW`: the small tower committed at (0,1), covering cells
(0,0)…(0,2). -/
def gridWmid : CityGrid :=
  (commitChoice gridW (uncovered_init gridW) (0, 1, tSmall)).1

/-- The set of cells scanned as placement candidates in one iteration
(the cells of the scanned pairs). -/
def scannedCells (g : CityGrid) : Finset (Nat × Nat) :=
  ((scanPairs g).map (fun c => (c.1, c.2.1))).toFinset

/-- C3 counterexample: on the concrete run of `place_towers` over
`gridW`, the first iteration commits the small tower at (0,1); in the
state `gridWmid` of the second iteration, the cell (0,2) is covered by
that tower's range yet not placed on, but it is NOT evaluated as a
placement candidate, and the set of candidate cells equals (is not
strictly larger than) the uncovered set, which itself equals the
maintained uncovered-blocks set. -/
theorem covered_cell_not_scanned :
    (selectBest gridW (uncovered_init gridW)).2 = some (0, 1, tSmall) ∧
    gridWmid.grid 0 2 = 1 ∧
    ((0 : Int), (2 : Int)) ∉ gridWmid.towers ∧
    scanPairs gridWmid = [(0, 3, tSmall), (0, 4, tSmall)] ∧
    scannedCells gridWmid = uncovered_init gridWmid ∧
    (commitChoice gridW (uncovered_init gridW) (0, 1, tSmall)).2 =
      uncovered_init gridWmid := by
  refine ⟨by decide, by decide, by decide, by decide, by decide, by decide⟩

/-- C3 amended: in every optimizer iteration, the candidate pairs
scanned are exactly the affordable catalog types paired with the cells
of the current uncovered set; the uncovered set coincides exactly with
the Free (value 0) in-bounds cells — never strictly smaller than the
candidate-cell set — because the loop invariant
`u = uncovered_init g` holds at the start and is preserved by every
commit (last conjunct); a covered (value 1) cell is never a
candidate. -/
theorem candidates_exactly_uncovered (g : CityGrid)
    (u : Finset (Nat × Nat)) (hu : u = uncovered_init g) :
    (∀ x y t, (x, y, t) ∈ scanPairs g ↔
      (t ∈ g.tower_types ∧ t.cost ≤ g.budget ∧ (x, y) ∈ u)) ∧
    (∀ x y, (x, y) ∈ u ↔ (x < g.n ∧ y < g.m ∧ g.grid x y = 0)) ∧
    (∀ x y t, g.grid x y = 1 → (x, y, t) ∉ scanPairs g) ∧
    (∀ c, (selectBest g u).2 = some c →
      (commitChoice g u c).2 = uncovered_init (commitChoice g u c).1) := by
  subst hu
  refine ⟨?_, ?_, ?_, ?_⟩
  · intro x y t
    rw [mem_scanPairs, mem_uncovered_init]
  · intro x y
    exact mem_uncovered_init
  · intro x y t h1 hmem
    have h0 := (mem_scanPairs.mp hmem).2.2.2.2
    rw [h1] at h0
    exact absurd h0 (by decide)
  · intro c hsel
    exact commit_uncovered_eq g _ c hsel rfl

theorem candidates_exactly_uncovered_witness :
    uncovered_init gridW = uncovered_init gridW ∧
    (commitChoice gridW (uncovered_init gridW) (0, 1, tSmall)).2 =
      uncovered_init
        (commitChoice gridW (uncovered_init gridW) (0, 1, tSmall)).1 :=
  ⟨rfl, (candidates_exactly_uncovered gridW (uncovered_init gridW) rfl).2.2.2
    (0, 1, tSmall) (by decide)⟩

/-- C4: for an in-bounds, non-obstructed cell (x,y), any range r, and
the pre-commit uncovered set S (the Free cells),
`calculate_coverage` returns exactly the members of S within Chebyshev
distance r of (x,y); and subtracting that set from S yields exactly
the Free cells of the grid after `place_tower(x,y,r)` — both use the
same clamped window, so the uncovered-set bookkeeping never drifts
from the grid state. -/
theorem coverage_consistency (g : CityGrid) (x y : Nat) (r : Int)
    (S : Finset (Nat × Nat)) (hx : x < g.n) (hy : y < g.m)
    (hobs : g.grid x y ≠ -1) (hS : S = uncovered_init g) :
    calculate_coverage g x y r S =
      S.filter (fun p => chebDist p x y ≤ r) ∧
    ∀ g2, place_tower g x y r = .ok g2 →
      S \ calculate_coverage g x y r S = uncovered_init g2 := by
  have hbounds : ∀ p ∈ S, p.1 < g.n ∧ p.2 < g.m := by
    intro p hp
    rw [hS] at hp
    obtain ⟨h1, h2, -⟩ := mem_uncovered_init.mp hp
    exact ⟨h1, h2⟩
  constructor
  · ext p
    rw [mem_calculate_coverage, Finset.mem_filter]
    constructor
    · rintro ⟨hp, hw⟩
      obtain ⟨h1, h2⟩ := hbounds p hp
      exact ⟨hp, (inWindow_iff_cheb h1 h2).mp hw⟩
    · rintro ⟨hp, hc⟩
      obtain ⟨h1, h2⟩ := hbounds p hp
      exact ⟨hp, (inWindow_iff_cheb h1 h2).mpr hc⟩
  · intro g2 hok
    rw [place_tower_ok_of_free r hx hy hobs] at hok
    injection hok with hok2
    subst hok2
    ext p
    obtain ⟨i, j⟩ := p
    simp only [Finset.mem_sdiff, mem_calculate_coverage, mem_uncovered_init,
      markWindow_eq_zero_iff, hS]
    constructor
    · rintro ⟨⟨h1, h2, h0⟩, hcov⟩
      exact ⟨h1, h2, h0, fun hw => hcov ⟨⟨h1, h2, h0⟩, hw⟩⟩
    · rintro ⟨h1, h2, h0, hnw⟩
      exact ⟨⟨h1, h2, h0⟩, fun hc => hnw hc.2⟩

theorem coverage_consistency_witness :
    (0 < gridW.n ∧ 1 < gridW.m ∧ gridW.grid 0 1 ≠ -1) ∧
    calculate_coverage gridW 0 1 1 (uncovered_init gridW) =
      (uncovered_init gridW).filter (fun p => chebDist p 0 1 ≤ 1) :=
  ⟨⟨by decide, by decide, by decide⟩,
    (coverage_consistency gridW 0 1 1 (uncovered_init gridW)
      (by decide) (by decide) (by decide) rfl).1⟩

/-- C5: whenever `find_shortest_path` returns a path, that path starts
at `start`, ends at `end`, has every consecutive pair within Chebyshev
distance r, and no walk with fewer edges reaches `end` from `start` in
the adjacency graph (a walk with n edges forces the returned path to
have at most n+1 nodes, i.e. at most n edges); and on the spec's fixed
example with placements (0,0), (1,1), (5,5) and r = 2, the query
(0,0)→(5,5) returns NotFound (`None`) while (0,0)→(1,1) returns the
two-node path. -/
theorem shortest_path_correct :
    (∀ (g : CityGrid) (s e : Tower) (r : Int) (p : List Tower),
      find_shortest_path g s e r = .ok (some p) →
      p.head? = some s ∧ p.getLast? = some e ∧
      p.Chain' (fun a b => is_within_range a b r) ∧
      (∀ n, Reach g.towers r n s e → p.length ≤ n + 1)) ∧
    find_shortest_path bfsExampleGrid (0, 0) (5, 5) 2 = .ok none ∧
    find_shortest_path bfsExampleGrid (0, 0) (1, 1) 2 =
      .ok (some [(0, 0), (1, 1)]) := by
  refine ⟨?_, by rfl, by rfl⟩
  intro g s e r p h
  obtain ⟨hne, hh, hl, hch⟩ := fsp_found_valid h
  exact ⟨hh, hl, validPath_within_range ⟨hne, hh, hl, hch⟩,
    fsp_found_min h⟩

theorem shortest_path_correct_witness :
    find_shortest_path bfsExampleGrid (0, 0) (1, 1) 2 =
      .ok (some [(0, 0), (1, 1)]) ∧
    ([((0 : Int), (0 : Int)), (1, 1)].head? = some (0, 0) ∧
      [((0 : Int), (0 : Int)), (1, 1)].getLast? = some (1, 1) ∧
      [((0 : Int), (0 : Int)), (1, 1)].Chain'
        (fun a b => is_within_range a b 2) ∧
      (∀ n, Reach bfsExampleGrid.towers 2 n (0, 0) (1, 1) →
        [((0 : Int), (0 : Int)), (1, 1)].length ≤ n + 1)) :=
  ⟨by rfl, shortest_path_correct.1 bfsExampleGrid (0, 0) (1, 1) 2
    [(0, 0), (1, 1)] (by rfl)⟩

/-- The grid of the C6 counterexample: a single placement at (0,0). -/
def gridC6 : CityGrid := ⟨6, 6, fun _ _ => 0, [(0, 0)], 0, defaultTowerTypes⟩

/-- C6 counterexample: when `start` is not one of the committed
placements ((2,2) here, with placements [(0,0)]), `find_shortest_path`
raises `KeyError` — an exception, not the NotFound (`None`) result the
claim requires. -/
theorem unknown_start_keyerror :
    find_shortest_path gridC6 (2, 2) (0, 0) 1 = .error .keyError ∧
    find_shortest_path gridC6 (2, 2) (0, 0) 1 ≠ .ok none := by
  constructor
  · rfl
  · intro h
    rw [show find_shortest_path gridC6 (2, 2) (0, 0) 1 =
        Except.error PyErr.keyError from rfl] at h
    exact absurd h (by simp)

/-- C6 amended: when `start` is a committed placement the search never
raises, and returns the NotFound result `None` whenever `end` is
unreachable in the adjacency graph, in particular whenever `end` is
not a committed placement.  When `start` is not a placement the call
raises `KeyError` instead — unless `start = end`, in which case the
path `[start]` is returned before the failing dict lookup. -/
theorem notfound_amended (g : CityGrid) (s e : Tower) (r : Int) :
    (s ∈ g.towers → (∃ o, find_shortest_path g s e r = .ok o) ∧
      ((¬ ∃ n, Reach g.towers r n s e) →
        find_shortest_path g s e r = .ok none) ∧
      (e ∉ g.towers → find_shortest_path g s e r = .ok none)) ∧
    (s ∉ g.towers → s ≠ e →
      find_shortest_path g s e r = .error .keyError) ∧
    (s = e → find_shortest_path g s e r = .ok (some [s])) := by
  refine ⟨fun hs => ⟨fsp_no_error g s e r hs, ?_, ?_⟩,
    fun hs hne => fsp_keyerror g s e r hs hne, fun he => ?_⟩
  · intro hur
    exact fsp_unreachable_none g s e r hs hur
  · intro het
    refine fsp_unreachable_none g s e r hs ?_
    rintro ⟨n, hn⟩
    exact het (reach_target_mem hn)
  · rw [he]
    exact fsp_self g e r

theorem notfound_amended_witness :
    ((0 : Int), (0 : Int)) ∈ gridC6.towers ∧
    ((5 : Int), (5 : Int)) ∉ gridC6.towers ∧
    find_shortest_path gridC6 (0, 0) (5, 5) 1 = .ok none :=
  ⟨by decide, by decide,
    ((notfound_amended gridC6 (0, 0) (5, 5) 1).1 (by decide)).2.2 (by decide)⟩

/-- The grid of the C7 counterexample: a 1×1 free grid. -/
def gridC7 : CityGrid := ⟨1, 1, fun _ _ => 0, [], 0, defaultTowerTypes⟩

/-- C7 counterexample: placing at the out-of-bounds cell (1,0) of a
1×1 grid raises numpy `IndexError`, not the `InvalidPlacement`
`ValueError` that the claim requires for out-of-bounds targets; and
placing at (-1,0) — also outside the grid's bounds as the claim reads
them — succeeds via numpy index wrap-around instead of failing. -/
theorem out_of_bounds_index_error :
    place_tower gridC7 1 0 0 = .error .indexError ∧
    place_tower gridC7 1 0 0 ≠ .error .invalidPlacement ∧
    place_tower gridC7 (-1) 0 0 =
      .ok { n := 1, m := 1, grid := markWindow gridC7 (-1) 0 0,
            towers := [((-1 : Int), (0 : Int))], budget := 0,
            tower_types := defaultTowerTypes } := by
  refine ⟨rfl, ?_, rfl⟩
  intro h
  rw [show place_tower gridC7 1 0 0 = Except.error PyErr.indexError
    from rfl] at h
  exact absurd h (by simp)

/-- C7 amended: for an in-bounds target cell, `place_tower` fails with
`InvalidPlacement` if and only if the cell is obstructed; otherwise it
succeeds, marking exactly the in-bounds non-obstructed cells within
Chebyshev distance r as Covered (with no error on cells already
Covered — they are simply set to 1 again) and appending the placement.
An index outside `[-n, n) × [-m, m)` raises `IndexError`, a different
error from `InvalidPlacement`; indices in `[-n, 0)` or `[-m, 0)` wrap
around (numpy semantics). -/
theorem place_tower_error_amended (g : CityGrid) (x y : Nat) (r : Int)
    (hx : x < g.n) (hy : y < g.m) :
    (place_tower g x y r = .error .invalidPlacement ↔ g.grid x y = -1) ∧
    (g.grid x y ≠ -1 →
      ∃ g2, place_tower g x y r = .ok g2 ∧
        g2.towers = g.towers ++ [((x : Int), (y : Int))] ∧
        g2.budget = g.budget ∧ g2.n = g.n ∧ g2.m = g.m ∧
        ∀ i j : Nat, i < g.n → j < g.m →
          g2.grid i j =
            if chebDist (i, j) x y ≤ r ∧ g.grid i j ≠ -1 then 1
            else g.grid i j) ∧
    (∀ x2 y2 : Int,
      (x2 < -(g.n : Int) ∨ (g.n : Int) ≤ x2 ∨
        y2 < -(g.m : Int) ∨ (g.m : Int) ≤ y2) →
      place_tower g x2 y2 r = .error .indexError) := by
  refine ⟨?_, ?_, ?_⟩
  · by_cases hobs : g.grid x y = -1
    · rw [place_tower, resolveIdx_coe hx, resolveIdx_coe hy]
      simp [hobs]
    · rw [place_tower_ok_of_free r hx hy hobs]
      simp [hobs]
  · intro hobs
    refine ⟨_, place_tower_ok_of_free r hx hy hobs, rfl, rfl, rfl, rfl, ?_⟩
    intro i j hi hj
    show markWindow g x y r i j = _
    rw [markWindow]
    by_cases hw : chebDist (i, j) x y ≤ r ∧ g.grid i j ≠ -1
    · rw [if_pos ⟨(inWindow_iff_cheb hi hj).mpr hw.1, hw.2⟩, if_pos hw]
    · rw [if_neg ?_, if_neg hw]
      intro hcontra
      exact hw ⟨(inWindow_iff_cheb hi hj).mp hcontra.1, hcontra.2⟩
  · intro x2 y2 hout
    rw [place_tower]
    rcases hout with h | h | h | h
    · rw [show resolveIdx g.n x2 = none from resolveIdx_eq_none.mpr (Or.inl h)]
    · rw [show resolveIdx g.n x2 = none from resolveIdx_eq_none.mpr (Or.inr h)]
    · rw [show resolveIdx g.m y2 = none from resolveIdx_eq_none.mpr (Or.inl h)]
      cases resolveIdx g.n x2 <;> rfl
    · rw [show resolveIdx g.m y2 = none from resolveIdx_eq_none.mpr (Or.inr h)]
      cases resolveIdx g.n x2 <;> rfl

theorem place_tower_error_amended_witness :
    (0 < gridW.n ∧ 1 < gridW.m) ∧
    (place_tower gridW 0 1 1 = .error .invalidPlacement ↔
      gridW.grid 0 1 = -1) :=
  ⟨⟨by decide, by decide⟩,
    (place_tower_error_amended gridW 0 1 1 (by decide) (by decide)).1⟩

/-- C8: after `place_towers` on a freshly-constructed grid (empty
towers list), every committed placement sits on an in-bounds,
non-obstructed cell of the final grid; and the `InvalidPlacement`
branch of `place_tower` is unreachable from the optimizer loop: in any
state, the selected candidate is a Free in-bounds cell, so the
`place_tower` call always succeeds. -/
theorem optimizer_avoids_invalid_placement (g : CityGrid)
    (h0 : g.towers = []) :
    (∀ q ∈ (place_towers g).1.towers, ∃ i j : Nat,
      q = ((i : Int), (j : Int)) ∧ i < (place_towers g).1.n ∧
      j < (place_towers g).1.m ∧ (place_towers g).1.grid i j ≠ -1) ∧
    (∀ (g2 : CityGrid) (u : Finset (Nat × Nat)) (x y : Nat)
      (t : TowerType), (selectBest g2 u).2 = some (x, y, t) →
      ∃ g3, place_tower g2 x y t.rng = .ok g3) := by
  constructor
  · rw [place_towers]
    have hinv : TowersInv g := by
      constructor
      · rw [h0]; exact List.nodup_nil
      · rw [h0]; simp
    obtain ⟨-, hmark⟩ :=
      place_towers_loop_towersInv ((uncovered_init g).card + 1) g
        (uncovered_init g) hinv
    intro q hq
    obtain ⟨i, j, heq, hi, hj, hone⟩ := hmark q hq
    refine ⟨i, j, heq, hi, hj, ?_⟩
    rw [hone]
    decide
  · intro g2 u x y t hsel
    obtain ⟨-, -, hx2, hy2, hfree⟩ :=
      mem_scanPairs.mp (selectBest_mem g2 u _ hsel)
    refine ⟨_, place_tower_ok_of_free t.rng hx2 hy2 ?_⟩
    rw [hfree]
    decide

theorem optimizer_avoids_invalid_placement_witness :
    gridW.towers = [] ∧
    ∀ q ∈ (place_towers gridW).1.towers, ∃ i j : Nat,
      q = ((i : Int), (j : Int)) ∧ i < (place_towers gridW).1.n ∧
      j < (place_towers gridW).1.m ∧
      (place_towers gridW).1.grid i j ≠ -1 :=
  ⟨by decide, (optimizer_avoids_invalid_placement gridW (by decide)).1⟩

/-- C9: a query with start = end returns the single-element path
immediately: the first dequeue compares `current == end` before the
adjacency lookup or any neighbor expansion, so the result holds for
any node (even one that is not a committed placement) and any radius. -/
theorem self_path_immediate (g : CityGrid) (P : Tower) (r : Int)
    (_hr : 0 ≤ r) : find_shortest_path g P P r = .ok (some [P]) :=
  fsp_self g P r

theorem self_path_immediate_witness :
    (0 : Int) ≤ 2 ∧
    find_shortest_path bfsExampleGrid (2, 2) (2, 2) 2 =
      .ok (some [(2, 2)]) :=
  ⟨by decide, self_path_immediate bfsExampleGrid (2, 2) 2 (by decide)⟩

/-- C10: after `place_towers` on a freshly-constructed grid, the
committed tower coordinates are pairwise distinct: committing marks the
placed-on cell Covered (value 1, second conjunct), and a later
candidate must still be Free (value 0), so no cell receives a second
tower. -/
theorem committed_towers_distinct (g : CityGrid) (h0 : g.towers = []) :
    (place_towers g).1.towers.Nodup ∧
    ∀ q ∈ (place_towers g).1.towers, ∃ i j : Nat,
      q = ((i : Int), (j : Int)) ∧ (place_towers g).1.grid i j = 1 := by
  rw [place_towers]
  have hinv : TowersInv g := by
    constructor
    · rw [h0]; exact List.nodup_nil
    · rw [h0]; simp
  obtain ⟨hnodup, hmark⟩ :=
    place_towers_loop_towersInv ((uncovered_init g).card + 1) g
      (uncovered_init g) hinv
  refine ⟨hnodup, ?_⟩
  intro q hq
  obtain ⟨i, j, heq, -, -, hone⟩ := hmark q hq
  exact ⟨i, j, heq, hone⟩

theorem committed_towers_distinct_witness :
    gridW.towers = [] ∧ (place_towers gridW).1.towers.Nodup :=
  ⟨by decide, (committed_towers_distinct gridW (by decide)).1⟩
